import Mathlib

/-!
Verification of the mydocx repository's core engines against its specification.

This file contains a shallow embedding, in Lean 4, of:
* the LCS diff engine (src/diff/matcher.go),
* the word-level diff layer and its summary (src/diff.go),
* the revision-aware text extractor (src/unnamed/part_004),
* the byte-preserving streaming rewriter (src/unnamed/part_016, second version),

together with theorems settling the frozen claims C1 - C10.

Conventions of the embedding:
* Go slices of strings become List String; Go byte indices are tracked at
  XML-token granularity (every offset the rewriter stores is a token
  boundary, see the comments at the rewriter section).
* Loops are modelled as fuel-indexed structural recursions (fuel bounds the
  number of loop iterations); wrappers supply fuel that provably suffices.
* Go's encoding/xml token stream is modelled by the inductive type Tok.
-/

namespace Mydocx

/-! ## Shared token model

The Go code reads tokens from encoding/xml. Every element-name comparison in
the repository checks Name.Space == NAMESPACE, so a name is modelled as a
local name plus a Boolean that records whether the namespace is the
wordprocessingml main namespace. -/

/-- An XML token as seen through Go's encoding/xml decoder: a start element,
an end element, character data, or any other token (comment, proc-inst...). -/
inductive Tok where
  | start (name : String) (ns : Bool)
  | close (name : String) (ns : Bool)
  | cdata (s : String)
  | other
deriving DecidableEq, Repr

/-- A token together with the raw input bytes it was parsed from.  The Go
decoder's InputOffset moves over the raw bytes; token raw spans partition the
container's bytes, so byte-accounting is done via these raw strings. -/
structure RawTok where
  tok : Tok
  raw : String
deriving DecidableEq, Repr

/-- xmlEscape (src/tpl.go line 102): Go xml.EscapeText's character
substitutions, applied to each character of the input. -/
def escChar (c : Char) : String :=
  if c = '"' then "&#34;"
  else if c = '\'' then "&#39;"
  else if c = '&' then "&amp;"
  else if c = '<' then "&lt;"
  else if c = '>' then "&gt;"
  else if c = '\t' then "&#x9;"
  else if c = '\n' then "&#xA;"
  else if c = '\x0d' then "&#xD;"
  else String.singleton c

/-- xmlEscape escapes text for inclusion in xml (src/tpl.go lines 102-108). -/
def xmlEscape (s : String) : String :=
  String.join (s.toList.map escChar)

/-! ## The LCS diff engine: src/diff/matcher.go -/

/-- OpCode (matcher.go lines 17-30): tag is one of 'e' (equal), 'd' (delete),
'i' (insert), 'r' (replace); [i1,i2) ranges over sequence a, [j1,j2) over b.
Go uses int; every value produced is a nonnegative index, so Nat is used. -/
structure OpCode where
  tag : Char
  i1 : Nat
  i2 : Nat
  j1 : Nat
  j2 : Nat
deriving DecidableEq, Repr

/-- One inner step of the DP-table row fill (matcher.go lines 128-140):
given a_i = a[i-1], the remaining suffix of b, the part of the previous row
starting at column j-1, and the value to the left dp[i][j-1], produce the
row entries dp[i][j], dp[i][j+1], ... . -/
def fillRowAux (ai : String) : List String → List Nat → Nat → List Nat
  | [], _, _ => []
  | bj :: brest, prev, left =>
    let v := if ai = bj then prev.headD 0 + 1
             else max (prev.getD 1 0) left
    v :: fillRowAux ai brest prev.tail v

/-- Row i of the DP table (column 0 is 0, as Go's freshly made slice). -/
def fillRow (ai : String) (b : List String) (prevRow : List Nat) : List Nat :=
  0 :: fillRowAux ai b prevRow 0

/-- Rows 1..lenA of the DP table, built row by row from row 0. -/
def dpRowsAux (b : List String) (prevRow : List Nat) : List String → List (List Nat)
  | [] => []
  | ai :: arest =>
    let r := fillRow ai b prevRow
    r :: dpRowsAux b r arest

/-- The full DP table of matcher.go lines 118-140: dp[i][j] is the LCS length
of a[0:i] and b[0:j]; row 0 and column 0 are zero. -/
def dpTable (a b : List String) : List (List Nat) :=
  let r0 := List.replicate (b.length + 1) 0
  r0 :: dpRowsAux b r0 a

/-- dp a b i j reads entry [i][j] of the table (0 outside the table, matching
the zero-initialised Go slices). -/
def dp (a b : List String) (i j : Nat) : Nat :=
  ((dpTable a b).getD i []).getD j 0

/-- The equal-run scan of the traceback (matcher.go lines 163-168): starting
at (i, j), step down-left while both indices are positive and the current
elements are equal; returns the final (i, j). -/
def eqScan (a b : List String) : Nat → Nat → Nat × Nat
  | i + 1, j + 1 =>
    if a.getD i "" = b.getD j "" then eqScan a b i j else (i + 1, j + 1)
  | i, j => (i, j)

/-- The delete-run scan (matcher.go lines 178-185): decrement i while the
delete condition i > 0 and (j == 0 or dp[i-1][j] >= dp[i][j-1]) holds,
stopping early (before decrementing) when the elements at (i, j) are equal. -/
def delScan (a b : List String) (j : Nat) : Nat → Nat
  | 0 => 0
  | i + 1 =>
    if j = 0 ∨ dp a b (i + 1) (j - 1) ≤ dp a b i j then
      if 0 < j ∧ a.getD i "" = b.getD (j - 1) "" then i + 1
      else delScan a b j i
    else i + 1

/-- The insert-run scan (matcher.go lines 195-202): decrement j while the
insert condition j > 0 and (i == 0 or dp[i-1][j] < dp[i][j-1]) holds,
stopping early when the elements at (i, j) are equal. -/
def insScan (a b : List String) (i : Nat) : Nat → Nat
  | 0 => 0
  | j + 1 =>
    if i = 0 ∨ dp a b (i - 1) (j + 1) < dp a b i j then
      if 0 < i ∧ a.getD (i - 1) "" = b.getD j "" then j + 1
      else insScan a b i j
    else j + 1

/-- traceback (matcher.go lines 156-220) without the final merge pass.
Go pushes opcodes onto a list while walking from (lenA, lenB) to (0, 0) and
reverses the list at the end; this embedding appends each opcode after the
recursive result, which yields the same final (reversed) order directly.
The fuel argument bounds the number of loop iterations; each iteration
strictly decreases i + j, so fuel >= i + j never runs out. -/
def tracebackAux (a b : List String) : Nat → Nat → Nat → List OpCode
  | 0, _, _ => []
  | fuel + 1, i, j =>
    if i = 0 ∧ j = 0 then []
    else if 0 < i ∧ 0 < j ∧ a.getD (i - 1) "" = b.getD (j - 1) "" then
      let p := eqScan a b i j
      tracebackAux a b fuel p.1 p.2 ++ [⟨'e', p.1, i, p.2, j⟩]
    else if 0 < i ∧ (j = 0 ∨ dp a b i (j - 1) ≤ dp a b (i - 1) j) then
      let i2 := delScan a b j i
      tracebackAux a b fuel i2 j ++ [⟨'d', i2, i, j, j⟩]
    else
      let j2 := insScan a b i j
      tracebackAux a b fuel i j2 ++ [⟨'i', i, i, j2, j⟩]

/-- The loop body of mergeReplaceOperations (matcher.go lines 240-281):
an insert immediately followed by an adjacent delete (or a delete followed by
an adjacent insert) becomes a single replace. -/
def mergeGo : List OpCode → List OpCode
  | [] => []
  | [c] => [c]
  | c :: n :: rest =>
    if c.tag = 'i' ∧ n.tag = 'd' ∧ c.i1 = n.i1 ∧ c.j2 = n.j1 then
      ⟨'r', n.i1, n.i2, c.j1, c.j2⟩ :: mergeGo rest
    else if c.tag = 'd' ∧ n.tag = 'i' ∧ c.i2 = n.i1 ∧ c.j1 = n.j1 then
      ⟨'r', c.i1, c.i2, n.j1, n.j2⟩ :: mergeGo rest
    else c :: mergeGo (n :: rest)

/-- mergeReplaceOperations (matcher.go lines 232-284). -/
def mergeReplaceOperations (operations : List OpCode) : List OpCode :=
  if operations.length ≤ 1 then operations else mergeGo operations

/-- computeOpCodes (matcher.go lines 104-144): empty-sequence special cases,
then DP table plus traceback plus merge. -/
def computeOpCodes (a b : List String) : List OpCode :=
  if a.length = 0 ∧ b.length = 0 then []
  else if a.length = 0 then [⟨'i', 0, 0, 0, b.length⟩]
  else if b.length = 0 then [⟨'d', 0, a.length, 0, 0⟩]
  else mergeReplaceOperations (tracebackAux a b (a.length + b.length) a.length b.length)

/-- GetOpCodes (matcher.go lines 80-88).  The Matcher caches the result of
computeOpCodes; repeated calls return the same value, so the function of the
two sequences is the cached content. -/
def getOpCodes (a b : List String) : List OpCode :=
  computeOpCodes a b

/-! ### The partition (coverage) property of the opcode list -/

/-- chainOk i j ops ei ej: the opcode list ops starts at (i, j), each opcode
begins where the previous one ended with nondecreasing ranges, and the list
ends at (ei, ej).  This is the gap-free, overlap-free, in-order partition of
[0, lenA) x [0, lenB) asserted by the specification. -/
def chainOk : Nat → Nat → List OpCode → Nat → Nat → Prop
  | i, j, [], ei, ej => i = ei ∧ j = ej
  | i, j, op :: l, ei, ej =>
    op.i1 = i ∧ op.j1 = j ∧ op.i1 ≤ op.i2 ∧ op.j1 ≤ op.j2 ∧ chainOk op.i2 op.j2 l ei ej

/-- Structural facts about each opcode tag that traceback guarantees:
a delete has an empty target range and an insert an empty source range. -/
def opTagOk (op : OpCode) : Prop :=
  (op.tag = 'd' → op.j1 = op.j2) ∧ (op.tag = 'i' → op.i1 = op.i2)

theorem chainOk_append {l1 l2 : List OpCode} {i j m n ei ej : Nat}
    (h1 : chainOk i j l1 m n) (h2 : chainOk m n l2 ei ej) :
    chainOk i j (l1 ++ l2) ei ej := by
  induction l1 generalizing i j with
  | nil =>
    obtain ⟨rfl, rfl⟩ := h1
    simpa using h2
  | cons op l ih =>
    obtain ⟨h1a, h1b, h1c, h1d, h1e⟩ := h1
    exact ⟨h1a, h1b, h1c, h1d, ih h1e⟩

theorem eqScan_le (a b : List String) :
    ∀ i j, (eqScan a b i j).1 ≤ i ∧ (eqScan a b i j).2 ≤ j := by
  intro i
  induction i with
  | zero => intro j; simp [eqScan]
  | succ i ih =>
    intro j
    cases j with
    | zero => simp [eqScan]
    | succ j =>
      rw [eqScan]
      split
      · exact ⟨Nat.le_succ_of_le (ih j).1, Nat.le_succ_of_le (ih j).2⟩
      · exact ⟨Nat.le_refl _, Nat.le_refl _⟩

theorem delScan_le (a b : List String) (j : Nat) :
    ∀ i, delScan a b j i ≤ i := by
  intro i
  induction i with
  | zero => simp [delScan]
  | succ i ih =>
    rw [delScan]
    split
    · split
      · exact Nat.le_refl _
      · exact Nat.le_succ_of_le ih
    · exact Nat.le_refl _

theorem insScan_le (a b : List String) (i : Nat) :
    ∀ j, insScan a b i j ≤ j := by
  intro j
  induction j with
  | zero => simp [insScan]
  | succ j ih =>
    rw [insScan]
    split
    · split
      · exact Nat.le_refl _
      · exact Nat.le_succ_of_le ih
    · exact Nat.le_refl _

/-- Under the conditions selecting the equal branch, the equal scan makes
strict progress on both coordinates. -/
theorem eqScan_lt (a b : List String) {i j : Nat} (hi : 0 < i) (hj : 0 < j)
    (heq : a.getD (i - 1) "" = b.getD (j - 1) "") :
    (eqScan a b i j).1 < i ∧ (eqScan a b i j).2 < j := by
  obtain ⟨i', rfl⟩ := Nat.exists_eq_add_of_lt hi
  obtain ⟨j', rfl⟩ := Nat.exists_eq_add_of_lt hj
  simp only [Nat.zero_add] at heq ⊢
  rw [eqScan]
  simp only [Nat.add_sub_cancel] at heq
  rw [if_pos heq]
  exact ⟨Nat.lt_succ_of_le (eqScan_le a b i' j').1,
         Nat.lt_succ_of_le (eqScan_le a b i' j').2⟩

/-- Under the conditions selecting the delete branch (not the equal branch,
and the delete guard holds), the delete scan makes strict progress. -/
theorem delScan_lt (a b : List String) {i j : Nat} (hi : 0 < i)
    (hguard : j = 0 ∨ dp a b i (j - 1) ≤ dp a b (i - 1) j)
    (hne : ¬(0 < i ∧ 0 < j ∧ a.getD (i - 1) "" = b.getD (j - 1) "")) :
    delScan a b j i < i := by
  obtain ⟨i', rfl⟩ := Nat.exists_eq_add_of_lt hi
  simp only [Nat.zero_add] at hguard hne ⊢
  rw [delScan]
  simp only [Nat.add_sub_cancel] at hguard hne
  rw [if_pos hguard, if_neg]
  · exact Nat.lt_succ_of_le (delScan_le a b j i')
  · intro ⟨h1, h2⟩
    exact hne ⟨Nat.succ_pos i', h1, h2⟩

/-- Under the conditions selecting the insert branch, j is positive and the
insert scan makes strict progress. -/
theorem insScan_lt (a b : List String) {i j : Nat}
    (hnz : ¬(i = 0 ∧ j = 0))
    (hne : ¬(0 < i ∧ 0 < j ∧ a.getD (i - 1) "" = b.getD (j - 1) ""))
    (hnd : ¬(0 < i ∧ (j = 0 ∨ dp a b i (j - 1) ≤ dp a b (i - 1) j))) :
    0 < j ∧ insScan a b i j < j := by
  have hj : 0 < j := by
    rcases Nat.eq_zero_or_pos j with hj0 | hj0
    · subst hj0
      rcases Nat.eq_zero_or_pos i with hi0 | hi0
      · exact absurd ⟨hi0, rfl⟩ hnz
      · exact absurd ⟨hi0, Or.inl rfl⟩ hnd
    · exact hj0
  refine ⟨hj, ?_⟩
  obtain ⟨j', rfl⟩ := Nat.exists_eq_add_of_lt hj
  simp only [Nat.zero_add] at hne hnd ⊢
  rw [insScan]
  simp only [Nat.add_sub_cancel] at hne hnd
  have hcond : i = 0 ∨ dp a b (i - 1) (j' + 1) < dp a b i j' := by
    rcases Nat.eq_zero_or_pos i with hi0 | hi0
    · exact Or.inl hi0
    · right
      have := fun h => hnd ⟨hi0, Or.inr h⟩
      omega
  rw [if_pos hcond, if_neg]
  · exact Nat.lt_succ_of_le (insScan_le a b i j')
  · intro ⟨h1, h2⟩
    exact hne ⟨h1, Nat.succ_pos j', h2⟩

/-- The traceback output, with sufficient fuel, is a chain from (0, 0) up to
(i, j), and its delete/insert opcodes have the empty ranges opTagOk demands. -/
theorem tracebackAux_chain (a b : List String) :
    ∀ fuel i j, i + j ≤ fuel →
      chainOk 0 0 (tracebackAux a b fuel i j) i j ∧
      ∀ op ∈ tracebackAux a b fuel i j, opTagOk op := by
  intro fuel
  induction fuel with
  | zero =>
    intro i j hle
    have hi : i = 0 := by omega
    have hj : j = 0 := by omega
    subst hi; subst hj
    exact ⟨⟨rfl, rfl⟩, by simp [tracebackAux]⟩
  | succ fuel ih =>
    intro i j hle
    rw [tracebackAux]
    split
    · rename_i h0
      obtain ⟨rfl, rfl⟩ := h0
      exact ⟨⟨rfl, rfl⟩, by simp⟩
    · rename_i h0
      split
      · rename_i heqb
        obtain ⟨hi, hj, heq⟩ := heqb
        have hlt := eqScan_lt a b hi hj heq
        have hle2 := eqScan_le a b i j
        have hih := ih (eqScan a b i j).1 (eqScan a b i j).2 (by omega)
        constructor
        · refine chainOk_append hih.1 ?_
          refine ⟨rfl, rfl, ?_, ?_, rfl, rfl⟩
          · show (eqScan a b i j).1 ≤ i
            omega
          · show (eqScan a b i j).2 ≤ j
            omega
        · intro op hop
          rcases List.mem_append.1 hop with h | h
          · exact hih.2 op h
          · simp only [List.mem_singleton] at h
            subst h
            constructor <;> intro htag <;> simp at htag
      · rename_i heqb
        split
        · rename_i hdelb
          obtain ⟨hi, hguard⟩ := hdelb
          have hlt := delScan_lt a b hi hguard heqb
          have hlescan := delScan_le a b j i
          have hih := ih (delScan a b j i) j (by omega)
          constructor
          · refine chainOk_append hih.1 ?_
            refine ⟨rfl, rfl, ?_, Nat.le_refl _, rfl, rfl⟩
            show delScan a b j i ≤ i
            omega
          · intro op hop
            rcases List.mem_append.1 hop with h | h
            · exact hih.2 op h
            · simp only [List.mem_singleton] at h
              subst h
              constructor <;> intro htag
              · rfl
              · simp at htag
        · rename_i hdelb
          have hlt := insScan_lt a b h0 heqb hdelb
          have hlescan := insScan_le a b i j
          have hih := ih i (insScan a b i j) (by omega)
          constructor
          · refine chainOk_append hih.1 ?_
            refine ⟨rfl, rfl, Nat.le_refl _, ?_, rfl, rfl⟩
            show insScan a b i j ≤ j
            omega
          · intro op hop
            rcases List.mem_append.1 hop with h | h
            · exact hih.2 op h
            · simp only [List.mem_singleton] at h
              subst h
              constructor <;> intro htag
              · simp at htag
              · rfl

/-- The Insert/Delete-to-Replace merge pass preserves the chain property
(given the structural tag facts the traceback guarantees). -/
theorem mergeGo_chain :
    ∀ (ops : List OpCode) (i j ei ej : Nat),
      (∀ op ∈ ops, opTagOk op) → chainOk i j ops ei ej →
      chainOk i j (mergeGo ops) ei ej := by
  intro ops
  induction ops using mergeGo.induct with
  | case1 =>
    intro i j ei ej _ h
    simpa [mergeGo] using h
  | case2 c =>
    intro i j ei ej _ h
    simpa [mergeGo] using h
  | case3 c n rest hcond ih =>
    intro i j ei ej htags h
    rw [mergeGo, if_pos hcond]
    obtain ⟨hc1, hc2, hc3, hc4, hn1, hn2, hn3, hn4, hrest⟩ := h
    obtain ⟨hcond1, hcond2, hcond3, hcond4⟩ := hcond
    have hcins := (htags c (by simp)).2 hcond1
    have hndel := (htags n (by simp)).1 hcond2
    refine ⟨?_, ?_, ?_, ?_, ?_⟩
    · show n.i1 = i
      omega
    · show c.j1 = j
      omega
    · show n.i1 ≤ n.i2
      omega
    · show c.j1 ≤ c.j2
      omega
    · show chainOk n.i2 c.j2 (mergeGo rest) ei ej
      have hj : c.j2 = n.j2 := by omega
      rw [hj]
      exact ih n.i2 n.j2 ei ej (fun op hop => htags op (by simp [hop])) hrest
  | case4 c n rest hcond1 hcond2 ih =>
    intro i j ei ej htags h
    rw [mergeGo, if_neg hcond1, if_pos hcond2]
    obtain ⟨hc1, hc2, hc3, hc4, hn1, hn2, hn3, hn4, hrest⟩ := h
    obtain ⟨hca, hcb, hcc, hcd⟩ := hcond2
    have hcdel := (htags c (by simp)).1 hca
    have hnins := (htags n (by simp)).2 hcb
    refine ⟨?_, ?_, ?_, ?_, ?_⟩
    · show c.i1 = i
      omega
    · show n.j1 = j
      omega
    · show c.i1 ≤ c.i2
      omega
    · show n.j1 ≤ n.j2
      omega
    · show chainOk c.i2 n.j2 (mergeGo rest) ei ej
      have hi : c.i2 = n.i2 := by omega
      rw [hi]
      exact ih n.i2 n.j2 ei ej (fun op hop => htags op (by simp [hop])) hrest
  | case5 c n rest hcond1 hcond2 ih =>
    intro i j ei ej htags h
    rw [mergeGo, if_neg hcond1, if_neg hcond2]
    obtain ⟨hc1, hc2, hc3, hc4, hrest⟩ := h
    exact ⟨hc1, hc2, hc3, hc4,
      ih c.i2 c.j2 ei ej (fun op hop => htags op (by simp [hop])) hrest⟩

/-- C2: For all token sequences a and b, the opcode list returned by
Matcher.GetOpCodes partitions [0, len a) and [0, len b) with no gaps and no
overlaps, in order: the first opcode starts at I1 = 0 and J1 = 0, each
subsequent opcode starts where the previous one ended, and the last opcode
ends at I2 = len a and J2 = len b; this holds after the
Insert/Delete-to-Replace merge pass (which getOpCodes applies). -/
theorem C2_opcodes_partition (a b : List String) :
    chainOk 0 0 (getOpCodes a b) a.length b.length := by
  unfold getOpCodes computeOpCodes
  split
  · rename_i h
    exact ⟨h.1.symm, h.2.symm⟩
  · rename_i h0
    split
    · rename_i h
      exact ⟨rfl, rfl, Nat.le_refl _, Nat.zero_le _, h.symm, rfl⟩
    · rename_i h1
      split
      · rename_i h
        exact ⟨rfl, rfl, Nat.zero_le _, Nat.le_refl _, rfl, h.symm⟩
      · have htc := tracebackAux_chain a b (a.length + b.length) a.length b.length
          (Nat.le_refl _)
        unfold mergeReplaceOperations
        split
        · exact htc.1
        · exact mergeGo_chain _ 0 0 a.length b.length htc.2 htc.1

/-! ### The traceback tie-break policy (delete bias) -/

theorem tracebackAux_step_del (a b : List String) (fuel i j : Nat) (hi : 0 < i)
    (hne : ¬(0 < i ∧ 0 < j ∧ a.getD (i - 1) "" = b.getD (j - 1) ""))
    (hguard : j = 0 ∨ dp a b i (j - 1) ≤ dp a b (i - 1) j) :
    tracebackAux a b (fuel + 1) i j =
      tracebackAux a b fuel (delScan a b j i) j ++ [⟨'d', delScan a b j i, i, j, j⟩] := by
  rw [tracebackAux, if_neg (by omega), if_neg hne, if_pos ⟨hi, hguard⟩]

theorem tracebackAux_step_ins (a b : List String) (fuel i j : Nat)
    (hnz : ¬(i = 0 ∧ j = 0))
    (hne : ¬(0 < i ∧ 0 < j ∧ a.getD (i - 1) "" = b.getD (j - 1) ""))
    (hnd : ¬(0 < i ∧ (j = 0 ∨ dp a b i (j - 1) ≤ dp a b (i - 1) j))) :
    tracebackAux a b (fuel + 1) i j =
      tracebackAux a b fuel i (insScan a b i j) ++ [⟨'i', i, i, insScan a b i j, j⟩] := by
  rw [tracebackAux, if_neg hnz, if_neg hne, if_neg hnd]

theorem tracebackAux_zero_zero (a b : List String) :
    ∀ fuel, tracebackAux a b fuel 0 0 = [] := by
  intro fuel
  cases fuel with
  | zero => rfl
  | succ fuel => rw [tracebackAux, if_pos ⟨rfl, rfl⟩]

/-! Zero DP table for sequences with no common tokens. -/

theorem getD_replicate_zero : ∀ n k, (List.replicate n (0 : Nat)).getD k 0 = 0 := by
  intro n
  induction n with
  | zero => intro k; simp [List.getD]
  | succ n ih =>
    intro k
    cases k with
    | zero => simp [List.replicate_succ]
    | succ k =>
      rw [List.replicate_succ, List.getD_cons_succ]
      exact ih k

theorem getD_tail_zero {l : List Nat} (h : ∀ k, l.getD k 0 = 0) :
    ∀ k, l.tail.getD k 0 = 0 := by
  intro k
  cases l with
  | nil => simp [List.getD]
  | cons x xs => simpa using h (k + 1)

theorem fillRowAux_zero {ai : String} :
    ∀ (bs : List String), (∀ y ∈ bs, ai ≠ y) →
      ∀ (prev : List Nat), (∀ k, prev.getD k 0 = 0) →
      ∀ k, (fillRowAux ai bs prev 0).getD k 0 = 0 := by
  intro bs
  induction bs with
  | nil => intro _ prev _ k; simp [fillRowAux, List.getD]
  | cons bj brest ih =>
    intro hb prev hprev k
    have hne : ai ≠ bj := hb bj (by simp)
    rw [fillRowAux]
    simp only [if_neg hne, hprev 1, Nat.max_self]
    cases k with
    | zero => simp
    | succ k =>
      simpa using ih (fun y hy => hb y (by simp [hy])) prev.tail (getD_tail_zero hprev) k

theorem fillRow_zero {ai : String} {b : List String} (hb : ∀ y ∈ b, ai ≠ y)
    {prev : List Nat} (hprev : ∀ k, prev.getD k 0 = 0) :
    ∀ k, (fillRow ai b prev).getD k 0 = 0 := by
  intro k
  cases k with
  | zero => simp [fillRow]
  | succ k => simpa [fillRow] using fillRowAux_zero b hb prev hprev k

theorem dpRowsAux_zero {b : List String} :
    ∀ (as' : List String), (∀ x ∈ as', ∀ y ∈ b, x ≠ y) →
      ∀ (prev : List Nat), (∀ k, prev.getD k 0 = 0) →
      ∀ row ∈ dpRowsAux b prev as', ∀ k, row.getD k 0 = 0 := by
  intro as'
  induction as' with
  | nil => intro _ prev _ row hrow; simp [dpRowsAux] at hrow
  | cons ai arest ih =>
    intro ha prev hprev row hrow
    rw [dpRowsAux] at hrow
    simp only [List.mem_cons] at hrow
    have hz : ∀ k, (fillRow ai b prev).getD k 0 = 0 :=
      fillRow_zero (fun y hy => ha ai (by simp) y hy) hprev
    rcases hrow with hrow | hrow
    · intro k; rw [hrow]; exact hz k
    · exact ih (fun x hx => ha x (by simp [hx])) _ hz row hrow

theorem dp_zero_of_disjoint {a b : List String} (hdis : ∀ x ∈ a, x ∉ b) :
    ∀ i j, dp a b i j = 0 := by
  intro i j
  unfold dp dpTable
  have hdis2 : ∀ x ∈ a, ∀ y ∈ b, x ≠ y := by
    intro x hx y hy heq
    exact hdis x hx (heq ▸ hy)
  cases i with
  | zero =>
    rw [List.getD_cons_zero]
    exact getD_replicate_zero (b.length + 1) j
  | succ i =>
    simp only [List.getD_cons_succ]
    set l := dpRowsAux b (List.replicate (b.length + 1) 0) a with hl
    have hrows : ∀ row ∈ l, ∀ k, row.getD k 0 = 0 :=
      dpRowsAux_zero a hdis2 _ (getD_replicate_zero (b.length + 1))
    by_cases hil : i < l.length
    · rw [List.getD_eq_getElem l [] hil]
      exact hrows _ (List.getElem_mem hil) j
    · rw [List.getD_eq_default l [] (Nat.le_of_not_lt hil)]
      simp [List.getD]

theorem delScan_zero_of_disjoint {a b : List String} (hdis : ∀ x ∈ a, x ∉ b)
    {j : Nat} (hj : 0 < j) (hjb : j ≤ b.length) :
    ∀ i, i ≤ a.length → delScan a b j i = 0 := by
  intro i
  induction i with
  | zero => intro _; rfl
  | succ i ih =>
    intro hia
    rw [delScan]
    rw [if_pos (Or.inr (by rw [dp_zero_of_disjoint hdis, dp_zero_of_disjoint hdis]))]
    rw [if_neg, ]
    · exact ih (by omega)
    · intro ⟨h1, h2⟩
      have hai : a.getD i "" ∈ a := by
        rw [List.getD_eq_getElem a "" (by omega)]
        exact List.getElem_mem _
      have hbj : b.getD (j - 1) "" ∈ b := by
        rw [List.getD_eq_getElem b "" (by omega)]
        exact List.getElem_mem _
      exact hdis _ hai (h2 ▸ hbj)

theorem insScan_zero_at_left (a b : List String) :
    ∀ j, insScan a b 0 j = 0 := by
  intro j
  induction j with
  | zero => rfl
  | succ j ih =>
    rw [insScan, if_pos (Or.inl rfl), if_neg]
    · exact ih
    · intro ⟨h1, _⟩
      exact absurd h1 (by omega)

/-- C9: During traceback, at a position (i, j) with i > 0, j > 0 and
a[i-1] != b[j-1], the algorithm moves toward the neighbor with the larger
table value, and on a tie (dp[i-1][j] = dp[i][j-1], an instance of the <=
guard in the first conjunct) it moves along the Delete direction, consuming
from sequence a first; consequently, for two nonempty sequences with no
common tokens the emitted script deletes all of a and inserts all of b,
merged by the post-pass into a single Replace opcode. -/
theorem C9_traceback_tiebreak (a b : List String) :
    (∀ fuel i j, 0 < i → 0 < j →
        a.getD (i - 1) "" ≠ b.getD (j - 1) "" →
        dp a b i (j - 1) ≤ dp a b (i - 1) j →
        tracebackAux a b (fuel + 1) i j =
          tracebackAux a b fuel (delScan a b j i) j ++
            [⟨'d', delScan a b j i, i, j, j⟩]) ∧
    (∀ fuel i j, 0 < i → 0 < j →
        a.getD (i - 1) "" ≠ b.getD (j - 1) "" →
        dp a b (i - 1) j < dp a b i (j - 1) →
        tracebackAux a b (fuel + 1) i j =
          tracebackAux a b fuel i (insScan a b i j) ++
            [⟨'i', i, i, insScan a b i j, j⟩]) ∧
    (a ≠ [] → b ≠ [] → (∀ x ∈ a, x ∉ b) →
        getOpCodes a b = [⟨'r', 0, a.length, 0, b.length⟩]) := by
  refine ⟨?_, ?_, ?_⟩
  · intro fuel i j hi hj hne hle
    exact tracebackAux_step_del a b fuel i j hi
      (fun h => hne h.2.2) (Or.inr hle)
  · intro fuel i j hi hj hne hlt
    refine tracebackAux_step_ins a b fuel i j (by omega)
      (fun h => hne h.2.2) ?_
    intro ⟨_, h⟩
    rcases h with h | h
    · omega
    · omega
  · intro ha hb hdis
    have han : 0 < a.length := List.length_pos.2 ha
    have hbn : 0 < b.length := List.length_pos.2 hb
    unfold getOpCodes computeOpCodes
    rw [if_neg (by omega), if_neg (by omega), if_neg (by omega)]
    have hstep1 : tracebackAux a b (a.length + b.length) a.length b.length =
        tracebackAux a b (a.length + b.length - 1) 0 b.length ++
          [⟨'d', 0, a.length, b.length, b.length⟩] := by
      have hfe : a.length + b.length = (a.length + b.length - 1) + 1 := by omega
      rw [hfe, tracebackAux_step_del a b _ _ _ han]
      · rw [delScan_zero_of_disjoint hdis hbn (Nat.le_refl _) a.length (Nat.le_refl _)]
        simp only [Nat.add_sub_cancel]
      · intro ⟨_, _, heq⟩
        have hai : a.getD (a.length - 1) "" ∈ a := by
          rw [List.getD_eq_getElem a "" (by omega)]
          exact List.getElem_mem _
        have hbj : b.getD (b.length - 1) "" ∈ b := by
          rw [List.getD_eq_getElem b "" (by omega)]
          exact List.getElem_mem _
        exact hdis _ hai (heq ▸ hbj)
      · exact Or.inr (by rw [dp_zero_of_disjoint hdis, dp_zero_of_disjoint hdis])
    have hstep2 : tracebackAux a b (a.length + b.length - 1) 0 b.length =
        [⟨'i', 0, 0, 0, b.length⟩] := by
      have hfe : a.length + b.length - 1 = (a.length + b.length - 2) + 1 := by omega
      rw [hfe, tracebackAux_step_ins a b _ _ _ (by omega) (by omega) (by omega)]
      rw [insScan_zero_at_left a b b.length, tracebackAux_zero_zero]
      rfl
    rw [hstep1, hstep2]
    unfold mergeReplaceOperations
    rw [if_neg (by simp)]
    simp only [List.singleton_append]
    rw [mergeGo.eq_3]
    rw [if_pos (show ('i' = 'i' ∧ 'd' = 'd' ∧ (0 : Nat) = 0 ∧ b.length = b.length) from
      ⟨rfl, rfl, rfl, rfl⟩)]
    rfl

/-- Concrete instantiation of C9_traceback_tiebreak at a = [x], b = [y]:
the tie-break hypotheses hold there and the opcode list is one Replace. -/
theorem C9_traceback_tiebreak_witness :
    ((0 : Nat) < 1 ∧ (["x"] : List String).getD 0 "" ≠ (["y"] : List String).getD 0 "" ∧
      dp ["x"] ["y"] 1 0 ≤ dp ["x"] ["y"] 0 1 ∧
      (["x"] : List String) ≠ [] ∧ (["y"] : List String) ≠ [] ∧
      (∀ x ∈ (["x"] : List String), x ∉ (["y"] : List String))) ∧
    tracebackAux ["x"] ["y"] 2 1 1 =
      tracebackAux ["x"] ["y"] 1 (delScan ["x"] ["y"] 1 1) 1 ++
        [⟨'d', delScan ["x"] ["y"] 1 1, 1, 1, 1⟩] ∧
    getOpCodes ["x"] ["y"] = [⟨'r', 0, 1, 0, 1⟩] := by
  refine ⟨by decide, ?_, ?_⟩
  · exact (C9_traceback_tiebreak ["x"] ["y"]).1 1 1 1 (by decide) (by decide)
      (by decide) (by decide)
  · exact (C9_traceback_tiebreak ["x"] ["y"]).2.2 (by decide) (by decide) (by decide)

/-! ## The word-level diff layer and its summary: src/diff.go -/

/-- Go's regexp character class backslash-s: tab, newline, formfeed,
carriage return, space (used by splitIntoWords). -/
def isSpace (c : Char) : Bool :=
  c = ' ' ∨ c = '\t' ∨ c = '\n' ∨ c = '\x0c' ∨ c = '\x0d'

/-- Maximal-run splitter: the regexp backslash-S+ or backslash-s+ of
splitIntoWords (diff.go lines 203-221) returns, left to right, maximal runs
of non-whitespace or whitespace characters.  cur accumulates the current
run (in order); a class change emits the finished run. -/
def splitWordsAux : List Char → List Char → List String
  | cur, [] => if cur.isEmpty then [] else [String.mk cur]
  | cur, c :: rest =>
    match cur with
    | [] => splitWordsAux [c] rest
    | d :: _ =>
      if isSpace c = isSpace d then splitWordsAux (cur ++ [c]) rest
      else String.mk cur :: splitWordsAux [c] rest

/-- splitIntoWords (diff.go lines 203-221).  The Go filter of empty matches
is a no-op since the regexp never yields an empty match. -/
def splitIntoWords (text : String) : List String :=
  if text = "" then [] else splitWordsAux [] text.toList

/-- joinParagraphs (diff.go lines 224-237): newline-separated join. -/
def joinParagraphs : List String → String
  | [] => ""
  | p :: rest => rest.foldl (fun acc q => acc ++ "\n" ++ q) p

/-- The diff operation type of diff.go lines 20-26 (Go uses the strings
"equal", "delete", "insert"). -/
inductive DiffType where
  | equal
  | delete
  | insert
deriving DecidableEq, Repr

/-- internalDiff (diff.go lines 29-32); the containerDiff operations carry
the same Type and Text fields, so one type models both. -/
structure InternalDiff where
  dtype : DiffType
  text : String
deriving DecidableEq, Repr

/-- Go strings.Join(words[lo:hi], "") on a slice of the token list. -/
def joinSlice (ws : List String) (lo hi : Nat) : String :=
  String.join ((ws.drop lo).take (hi - lo))

/-- The per-opcode conversion of diffAtWordLevel (diff.go lines 152-197):
each opcode contributes an equal/delete/insert entry when its range is
nonempty; a replace contributes a delete then an insert. -/
def opToDiffs (ow aw : List String) (op : OpCode) : List InternalDiff :=
  if op.tag = 'e' then
    if op.i1 < op.i2 then [⟨DiffType.equal, joinSlice ow op.i1 op.i2⟩] else []
  else if op.tag = 'd' then
    if op.i1 < op.i2 then [⟨DiffType.delete, joinSlice ow op.i1 op.i2⟩] else []
  else if op.tag = 'i' then
    if op.j1 < op.j2 then [⟨DiffType.insert, joinSlice aw op.j1 op.j2⟩] else []
  else if op.tag = 'r' then
    (if op.i1 < op.i2 then [⟨DiffType.delete, joinSlice ow op.i1 op.i2⟩] else []) ++
    (if op.j1 < op.j2 then [⟨DiffType.insert, joinSlice aw op.j1 op.j2⟩] else [])
  else []

/-- diffAtWordLevel (diff.go lines 141-200). -/
def diffAtWordLevel (original accepted : String) : List InternalDiff :=
  let ow := splitIntoWords original
  let aw := splitIntoWords accepted
  (getOpCodes ow aw).flatMap (opToDiffs ow aw)

/-- diffContainer (diff.go lines 110-138): join the paragraph lists, skip
when both joined strings are empty, else word-level diff.  The Operations
list is what the summary consumes. -/
def diffContainer (original accepted : List String) : List InternalDiff :=
  let originalText := joinParagraphs original
  let acceptedText := joinParagraphs accepted
  if originalText = "" ∧ acceptedText = "" then []
  else diffAtWordLevel originalText acceptedText

/-- DiffSummary (diff.go lines 46-52). -/
structure DiffSummary where
  TotalContainers : Nat
  ChangedContainers : Nat
  TotalInsertions : Nat
  TotalDeletions : Nat
  TotalEqual : Nat
deriving DecidableEq, Repr

/-- Go map access original[containerName] (missing key yields nil). -/
def lookupD : List (String × List String) → String → List String
  | [], _ => []
  | (k, v) :: rest, name => if k = name then v else lookupD rest name

/-- The key list of an extraction map. -/
def mapKeys (m : List (String × List String)) : List String :=
  m.map Prod.fst

/-- The containerNames set of Diff (diff.go lines 62-68): every name of
either map, once.  Go ranges over a map; the summary counters are sums over
the set, independent of enumeration order, so a fixed order is used here. -/
def unionNames (original accepted : List (String × List String)) : List String :=
  mapKeys original ++
    (mapKeys accepted).filter (fun n => decide (n ∉ mapKeys original))

/-- The operations diffContainer produces for one container name. -/
def containerOps (original accepted : List (String × List String))
    (name : String) : List InternalDiff :=
  diffContainer (lookupD original name) (lookupD accepted name)

/-- The hasChanges test of Diff (diff.go lines 80-86). -/
def hasChangesB (original accepted : List (String × List String))
    (name : String) : Bool :=
  (containerOps original accepted name).any (fun op => !(op.dtype == DiffType.equal))

/-- Number of operations of one type in a list (the per-operation counter
increments of diff.go lines 94-103, summed). -/
def countType (t : DiffType) (ops : List InternalDiff) : Nat :=
  (ops.filter (fun op => op.dtype == t)).length

/-- The per-container body of Diff's loop (diff.go lines 73-104), acting on
the summary: ChangedContainers increments when the container has a non-equal
operation, and each operation bumps its per-type counter. -/
def diffStep (original accepted : List (String × List String))
    (s : DiffSummary) (name : String) : DiffSummary :=
  let ops := containerOps original accepted name
  { TotalContainers := s.TotalContainers
    ChangedContainers :=
      s.ChangedContainers + (if hasChangesB original accepted name then 1 else 0)
    TotalInsertions := s.TotalInsertions + countType DiffType.insert ops
    TotalDeletions := s.TotalDeletions + countType DiffType.delete ops
    TotalEqual := s.TotalEqual + countType DiffType.equal ops }

/-- The summary computed by Diff (diff.go lines 55-107): TotalContainers is
the size of the name set, fixed before the loop; the loop then folds
diffStep over the containers. -/
def diffSummaryOf (original accepted : List (String × List String)) : DiffSummary :=
  (unionNames original accepted).foldl (diffStep original accepted)
    { TotalContainers := (unionNames original accepted).length
      ChangedContainers := 0
      TotalInsertions := 0
      TotalDeletions := 0
      TotalEqual := 0 }

/-! ### Token counts versus operation counts (claim C7) -/

/-- The opcodes Diff computes for one container (what diffAtWordLevel feeds
opToDiffs with; empty when both sides are empty, matching the early skip). -/
def containerOpcodes (original accepted : List (String × List String))
    (name : String) : List OpCode :=
  let originalText := joinParagraphs (lookupD original name)
  let acceptedText := joinParagraphs (lookupD accepted name)
  if originalText = "" ∧ acceptedText = "" then []
  else getOpCodes (splitIntoWords originalText) (splitIntoWords acceptedText)

/-- Number of equal-tagged tokens in an opcode list. -/
def eqTokens (ops : List OpCode) : Nat :=
  (ops.map (fun op => if op.tag = 'e' then op.i2 - op.i1 else 0)).sum

/-- Number of deleted tokens (delete and replace source ranges). -/
def delTokens (ops : List OpCode) : Nat :=
  (ops.map (fun op => if op.tag = 'd' ∨ op.tag = 'r' then op.i2 - op.i1 else 0)).sum

/-- Number of inserted tokens (insert and replace target ranges). -/
def insTokens (ops : List OpCode) : Nat :=
  (ops.map (fun op => if op.tag = 'i' ∨ op.tag = 'r' then op.j2 - op.j1 else 0)).sum

/-- Total equal-tagged tokens across all containers of a map pair. -/
def totalEqTokens (original accepted : List (String × List String)) : Nat :=
  ((unionNames original accepted).map
    (fun n => eqTokens (containerOpcodes original accepted n))).sum

/-- A one-container map pair with identical three-token content. -/
def c7pair : List (String × List String) :=
  [("c", ["a b"])]

/-- C7 counterexample: for original = accepted = c7pair (three equal tokens
"a", " ", "b" forming one equal operation), Diff's TotalEqual is 1, the
number of equal operations, not 3, the number of equal tokens; so the
claim's "TotalEqual equals the total number of equal tokens" is false. -/
theorem C7_token_count_counterexample :
    ¬ ((diffSummaryOf c7pair c7pair).TotalEqual = totalEqTokens c7pair c7pair) := by
  decide

/-- The foldl of diffStep accumulates, over any name list, the per-container
operation counts onto the starting summary, leaving TotalContainers fixed. -/
theorem diffFold_spec (original accepted : List (String × List String)) :
    ∀ (l : List String) (s : DiffSummary),
      (l.foldl (diffStep original accepted) s).TotalContainers = s.TotalContainers ∧
      (l.foldl (diffStep original accepted) s).ChangedContainers
        = s.ChangedContainers + (l.filter (hasChangesB original accepted)).length ∧
      (l.foldl (diffStep original accepted) s).TotalInsertions
        = s.TotalInsertions +
          (l.map (fun n => countType DiffType.insert (containerOps original accepted n))).sum ∧
      (l.foldl (diffStep original accepted) s).TotalDeletions
        = s.TotalDeletions +
          (l.map (fun n => countType DiffType.delete (containerOps original accepted n))).sum ∧
      (l.foldl (diffStep original accepted) s).TotalEqual
        = s.TotalEqual +
          (l.map (fun n => countType DiffType.equal (containerOps original accepted n))).sum := by
  intro l
  induction l with
  | nil => intro s; simp
  | cons n l ih =>
    intro s
    have h := ih (diffStep original accepted s n)
    have e1 : (diffStep original accepted s n).TotalContainers = s.TotalContainers := rfl
    have e2 : (diffStep original accepted s n).ChangedContainers
        = s.ChangedContainers + (if hasChangesB original accepted n then 1 else 0) := rfl
    have e3 : (diffStep original accepted s n).TotalInsertions
        = s.TotalInsertions + countType DiffType.insert (containerOps original accepted n) := rfl
    have e4 : (diffStep original accepted s n).TotalDeletions
        = s.TotalDeletions + countType DiffType.delete (containerOps original accepted n) := rfl
    have e5 : (diffStep original accepted s n).TotalEqual
        = s.TotalEqual + countType DiffType.equal (containerOps original accepted n) := rfl
    simp only [List.foldl_cons, List.filter_cons, List.map_cons, List.sum_cons]
    refine ⟨?_, ?_, ?_, ?_, ?_⟩
    · rw [h.1, e1]
    · rw [h.2.1, e2]
      by_cases hc : hasChangesB original accepted n
      · simp only [hc, if_true, List.length_cons]
        omega
      · simp only [hc, if_false, Bool.false_eq_true]
        omega
    · rw [h.2.2.1, e3]; omega
    · rw [h.2.2.2.1, e4]; omega
    · rw [h.2.2.2.2, e5]; omega

/-- C7 amended: Diff's summary reports the number of distinct container
names of either map as TotalContainers (the union list, duplicate-free when
each map's keys are, as Go map keys always are), the number of containers
with at least one non-equal operation as ChangedContainers, and the numbers
of insert, delete, and equal OPERATIONS (maximal merged runs of tokens; a
replace opcode contributes one delete and one insert operation), summed
across all containers, as TotalInsertions, TotalDeletions, TotalEqual. -/
theorem C7_summary_reports_operation_counts
    (original accepted : List (String × List String))
    (h1 : (mapKeys original).Nodup) (h2 : (mapKeys accepted).Nodup) :
    (unionNames original accepted).Nodup ∧
    (∀ n, n ∈ unionNames original accepted ↔
        n ∈ mapKeys original ∨ n ∈ mapKeys accepted) ∧
    (diffSummaryOf original accepted).TotalContainers
      = (unionNames original accepted).length ∧
    (diffSummaryOf original accepted).ChangedContainers
      = ((unionNames original accepted).filter (hasChangesB original accepted)).length ∧
    (diffSummaryOf original accepted).TotalInsertions
      = ((unionNames original accepted).map
          (fun n => countType DiffType.insert (containerOps original accepted n))).sum ∧
    (diffSummaryOf original accepted).TotalDeletions
      = ((unionNames original accepted).map
          (fun n => countType DiffType.delete (containerOps original accepted n))).sum ∧
    (diffSummaryOf original accepted).TotalEqual
      = ((unionNames original accepted).map
          (fun n => countType DiffType.equal (containerOps original accepted n))).sum := by
  have hfold := diffFold_spec original accepted (unionNames original accepted)
    { TotalContainers := (unionNames original accepted).length
      ChangedContainers := 0
      TotalInsertions := 0
      TotalDeletions := 0
      TotalEqual := 0 }
  refine ⟨?_, ?_, ?_, ?_, ?_, ?_, ?_⟩
  · refine List.Nodup.append h1 (List.Nodup.filter _ h2) ?_
    intro n hn hmem
    have := List.of_mem_filter hmem
    simp only [decide_eq_true_eq] at this
    exact this hn
  · intro n
    unfold unionNames
    simp only [List.mem_append, List.mem_filter, decide_eq_true_eq]
    constructor
    · rintro (h | ⟨h, _⟩)
      · exact Or.inl h
      · exact Or.inr h
    · rintro (h | h)
      · exact Or.inl h
      · by_cases ho : n ∈ mapKeys original
        · exact Or.inl ho
        · exact Or.inr ⟨h, by simpa using ho⟩
  · exact hfold.1
  · simpa using hfold.2.1
  · simpa using hfold.2.2.1
  · simpa using hfold.2.2.2.1
  · simpa using hfold.2.2.2.2

/-- Concrete instantiation of the amended C7 theorem on a two-container
pair: the hypotheses (duplicate-free keys) hold and the summary matches the
operation counts. -/
theorem C7_summary_witness :
    ((mapKeys [("c", ["a b"])]).Nodup ∧ (mapKeys [("c", ["a c"]), ("d", ["x"])]).Nodup) ∧
    (diffSummaryOf [("c", ["a b"])] [("c", ["a c"]), ("d", ["x"])]).TotalContainers
      = (unionNames [("c", ["a b"])] [("c", ["a c"]), ("d", ["x"])]).length := by
  refine ⟨by decide, ?_⟩
  exact (C7_summary_reports_operation_counts [("c", ["a b"])] [("c", ["a c"]), ("d", ["x"])]
    (by decide) (by decide)).2.2.1

/-! ## The revision-aware extractor: src/unnamed/part_004

The functions below mirror the Go extractor loop for loop.  Go reads tokens
from an xml.Decoder; here the undecoded stream is a List Tok and running out
of list is the decoder returning an error (clean EOF between elements and a
syntax error inside an element reach the loops the same way: a non-nil err
that merely exits the loop).

A central fact of this code, mirrored here: in every extractor function the
Go loop header is for tok, err := dec.Token(); err == nil; tok, err =
dec.Token() - the := declares loop-scoped tok and err that SHADOW the named
return value err.  Inner results are assigned to the loop-scoped err, and
the return statements after the loop return the named err, which is never
assigned: every extractor function therefore always returns a nil error.
The embeddings make that literal: helper loops return no error component and
the two top-level extractors pair their result with none. -/

/-- The inner skip loops (delText at part_004 lines 185-193, ins at lines
249-257 and 325-333): read and discard tokens until the matching end
element, which is consumed too; a decoder error stops the skip. -/
def skipUntilClose (name : String) : Nat → List Tok → List Tok
  | _, [] => []
  | 0, ts => ts
  | fuel + 1, tk :: ts =>
    match tk with
    | Tok.close n ns => if n = name ∧ ns then ts else skipUntilClose name fuel ts
    | _ => skipUntilClose name fuel ts

/-- extractText (part_004 lines 167-204), ACCEPTED mode: within a run,
del toggles the inDeletion flag, a t element outside a deletion contributes
its character data, a delText element is skipped entirely, and the run's end
tag returns the text collected so far. -/
def extractTextLoop (inDeletion : Bool) (tt : String) : Nat → List Tok → String × List Tok
  | _, [] => (tt, [])
  | 0, ts => (tt, ts)
  | fuel + 1, tk :: ts =>
    match tk with
    | Tok.start n ns =>
      if n = "del" ∧ ns then extractTextLoop true tt fuel ts
      else if n = "t" ∧ ns ∧ ¬inDeletion then
        match ts with
        | [] => (tt, [])
        | cdt :: ts2 =>
          match cdt with
          | Tok.cdata s => extractTextLoop inDeletion (tt ++ s) fuel ts2
          | _ => extractTextLoop inDeletion tt fuel ts2
      else if n = "delText" ∧ ns then
        extractTextLoop inDeletion tt fuel (skipUntilClose "delText" fuel ts)
      else extractTextLoop inDeletion tt fuel ts
    | Tok.close n ns =>
      if n = "del" ∧ ns then extractTextLoop false tt fuel ts
      else if n = "r" ∧ ns then (tt, ts)
      else extractTextLoop inDeletion tt fuel ts
    | _ => extractTextLoop inDeletion tt fuel ts

/-- extractRuns (part_004 lines 146-164): concatenates extractText over the
runs of a paragraph, returning at the paragraph's end tag.  Its Go err
return is always nil (shadowed named return), hence no error component. -/
def extractRunsLoop (tt : String) : Nat → List Tok → String × List Tok
  | _, [] => (tt, [])
  | 0, ts => (tt, ts)
  | fuel + 1, tk :: ts =>
    match tk with
    | Tok.start n ns =>
      if n = "r" ∧ ns then
        let p := extractTextLoop false "" fuel ts
        extractRunsLoop (tt ++ p.1) fuel p.2
      else extractRunsLoop tt fuel ts
    | Tok.close n ns =>
      if n = "p" ∧ ns then (tt, ts)
      else extractRunsLoop tt fuel ts
    | _ => extractRunsLoop tt fuel ts

/-- extractParagraphs' loop (part_004 lines 122-143): one string per p start
element.  Since extractRuns always returns a nil error, the io.EOF and
error branches (lines 132-137) are dead and the collected text is always
appended. -/
def extractParagraphsLoop (res : List String) : Nat → List Tok → List String
  | _, [] => res
  | 0, _ => res
  | fuel + 1, tk :: ts =>
    match tk with
    | Tok.start n ns =>
      if n = "p" ∧ ns then
        let p := extractRunsLoop "" fuel ts
        extractParagraphsLoop (res ++ [p.1]) fuel p.2
      else extractParagraphsLoop res fuel ts
    | _ => extractParagraphsLoop res fuel ts

/-- extractParagraphs (part_004 lines 122-143): the returned error is the
function's named err, which the loop shadows and which is never assigned,
so the result is always paired with none. -/
def extractParagraphs (ts : List Tok) : List String × Option String :=
  (extractParagraphsLoop [] (ts.length + 1) ts, none)

/-- checkParagraphPropertiesForInsertion (part_004 lines 298-312): the
StartElement case is an empty placeholder, the pPr end element returns
false, and falling off the loop returns false: every branch yields false. -/
def checkPPrLoop : Nat → List Tok → Bool × List Tok
  | _, [] => (false, [])
  | 0, ts => (false, ts)
  | fuel + 1, tk :: ts =>
    match tk with
    | Tok.close n ns => if n = "pPr" ∧ ns then (false, ts) else checkPPrLoop fuel ts
    | _ => checkPPrLoop fuel ts

/-- extractOriginalTextFromRun (part_004 lines 316-359), ORIGINAL mode:
an ins start sets the inInsertion flag (never reset, as in the source) and
skips its subtree; t text outside insertions and all delText text is
collected; the run's end tag returns. -/
def extractOrigRunLoop (inInsertion : Bool) (tt : String) : Nat → List Tok → String × List Tok
  | _, [] => (tt, [])
  | 0, ts => (tt, ts)
  | fuel + 1, tk :: ts =>
    match tk with
    | Tok.start n ns =>
      if n = "ins" ∧ ns then
        extractOrigRunLoop true tt fuel (skipUntilClose "ins" fuel ts)
      else if n = "t" ∧ ns ∧ ¬inInsertion then
        match ts with
        | [] => (tt, [])
        | cdt :: ts2 =>
          match cdt with
          | Tok.cdata s => extractOrigRunLoop inInsertion (tt ++ s) fuel ts2
          | _ => extractOrigRunLoop inInsertion tt fuel ts2
      else if n = "delText" ∧ ns then
        match ts with
        | [] => (tt, [])
        | cdt :: ts2 =>
          match cdt with
          | Tok.cdata s => extractOrigRunLoop inInsertion (tt ++ s) fuel ts2
          | _ => extractOrigRunLoop inInsertion tt fuel ts2
      else extractOrigRunLoop inInsertion tt fuel ts
    | Tok.close n ns =>
      if n = "r" ∧ ns then (tt, ts)
      else extractOrigRunLoop inInsertion tt fuel ts
    | _ => extractOrigRunLoop inInsertion tt fuel ts

/-- extractOriginalTextFromDeletion (part_004 lines 277-292): collects
extractOriginalTextFromRun over the runs of a del block. -/
def extractOrigDelLoop (tt : String) : Nat → List Tok → String × List Tok
  | _, [] => (tt, [])
  | 0, ts => (tt, ts)
  | fuel + 1, tk :: ts =>
    match tk with
    | Tok.start n ns =>
      if n = "r" ∧ ns then
        let p := extractOrigRunLoop false "" fuel ts
        extractOrigDelLoop (tt ++ p.1) fuel p.2
      else extractOrigDelLoop tt fuel ts
    | Tok.close n ns =>
      if n = "del" ∧ ns then (tt, ts)
      else extractOrigDelLoop tt fuel ts
    | _ => extractOrigDelLoop tt fuel ts

/-- extractOriginalRunsFromParagraph (part_004 lines 238-274): pPr is
inspected through checkParagraphPropertiesForInsertion, a paragraph-level
ins subtree is skipped without being entered, a del block and a plain run
contribute their ORIGINAL text, and the paragraph end tag returns the text
with the inserted-paragraph flag. -/
def extractOrigParaLoop (tt : String) (isInsertedParagraph : Bool) :
    Nat → List Tok → String × Bool × List Tok
  | _, [] => (tt, isInsertedParagraph, [])
  | 0, ts => (tt, isInsertedParagraph, ts)
  | fuel + 1, tk :: ts =>
    match tk with
    | Tok.start n ns =>
      if n = "pPr" ∧ ns then
        let p := checkPPrLoop fuel ts
        extractOrigParaLoop tt p.1 fuel p.2
      else if n = "ins" ∧ ns then
        extractOrigParaLoop tt isInsertedParagraph fuel (skipUntilClose "ins" fuel ts)
      else if n = "del" ∧ ns then
        let p := extractOrigDelLoop "" fuel ts
        extractOrigParaLoop (tt ++ p.1) isInsertedParagraph fuel p.2
      else if n = "r" ∧ ns then
        let p := extractOrigRunLoop false "" fuel ts
        extractOrigParaLoop (tt ++ p.1) isInsertedParagraph fuel p.2
      else extractOrigParaLoop tt isInsertedParagraph fuel ts
    | Tok.close n ns =>
      if n = "p" ∧ ns then (tt, isInsertedParagraph, ts)
      else extractOrigParaLoop tt isInsertedParagraph fuel ts
    | _ => extractOrigParaLoop tt isInsertedParagraph fuel ts

/-- extractOriginalParagraphs' loop (part_004 lines 207-235): paragraphs
whose inserted flag is false (always, see C10) are appended; like the
ACCEPTED loop, the helper's err is always nil so nothing else happens. -/
def extractOrigParasLoop (res : List String) : Nat → List Tok → List String
  | _, [] => res
  | 0, _ => res
  | fuel + 1, tk :: ts =>
    match tk with
    | Tok.start n ns =>
      if n = "p" ∧ ns then
        let q := extractOrigParaLoop "" false fuel ts
        if q.2.1 then extractOrigParasLoop res fuel q.2.2
        else extractOrigParasLoop (res ++ [q.1]) fuel q.2.2
      else extractOrigParasLoop res fuel ts
    | _ => extractOrigParasLoop res fuel ts

/-- extractOriginalParagraphs (part_004 lines 207-235): always a nil error,
for the same shadowed-named-return reason as extractParagraphs. -/
def extractOriginalParagraphs (ts : List Tok) : List String × Option String :=
  (extractOrigParasLoop [] (ts.length + 1) ts, none)

/-- The number of p start elements the ORIGINAL traversal encounters at
paragraph level (same walk as extractOrigParasLoop, counting instead of
collecting). -/
def countOrigParas : Nat → List Tok → Nat
  | _, [] => 0
  | 0, _ => 0
  | fuel + 1, tk :: ts =>
    match tk with
    | Tok.start n ns =>
      if n = "p" ∧ ns then
        1 + countOrigParas fuel (extractOrigParaLoop "" false fuel ts).2.2
      else countOrigParas fuel ts
    | _ => countOrigParas fuel ts

/-! ### Claims about the extractor -/

/-- The token stream of a paragraph whose markup logically reads
Hello [deleted:old][inserted:new] world: a run with text "Hello ", a
deletion wrapper holding delText "old", an insertion wrapper holding a run
with text "new", and a run with text " world". -/
def helloRevisionToks : List Tok :=
  [Tok.start "body" true,
   Tok.start "p" true,
   Tok.start "r" true, Tok.start "t" true, Tok.cdata "Hello ",
   Tok.close "t" true, Tok.close "r" true,
   Tok.start "del" true,
   Tok.start "r" true, Tok.start "delText" true, Tok.cdata "old",
   Tok.close "delText" true, Tok.close "r" true,
   Tok.close "del" true,
   Tok.start "ins" true,
   Tok.start "r" true, Tok.start "t" true, Tok.cdata "new",
   Tok.close "t" true, Tok.close "r" true,
   Tok.close "ins" true,
   Tok.start "r" true, Tok.start "t" true, Tok.cdata " world",
   Tok.close "t" true, Tok.close "r" true,
   Tok.close "p" true,
   Tok.close "body" true]

/-- C3: For the paragraph "Hello [deleted:old][inserted:new] world",
ACCEPTED-mode extraction returns "Hello new world" (insertion included,
deletion wrapper and content excluded) and ORIGINAL-mode extraction returns
"Hello old world" (deleted text restored, the insertion subtree skipped
without being entered). -/
theorem C3_revision_modes :
    extractParagraphs helloRevisionToks = (["Hello new world"], none) ∧
    extractOriginalParagraphs helloRevisionToks = (["Hello old world"], none) := by
  decide

/-- A container truncated inside a paragraph, run and text element: the
stream ends (decoder error) right after the character data of an open t
element of an open run of an open paragraph. -/
def truncatedParagraphToks : List Tok :=
  [Tok.start "body" true, Tok.start "p" true, Tok.start "r" true,
   Tok.start "t" true, Tok.cdata "Hi"]

/-- C4 (code bug): extraction never returns an error - each extractor's
named err return is shadowed by the loop-scoped err, so every return site
yields nil - and on an input truncated inside a paragraph/run/text element
it silently returns the partial paragraph collected so far, instead of the
ParseError the claim (and the callers' error-wrapping code at part_004
lines 56-59 and 110-113, which is dead) expects. -/
theorem C4_parse_error_swallowed :
    (∀ ts, (extractParagraphs ts).2 = none ∧ (extractOriginalParagraphs ts).2 = none) ∧
    extractParagraphs truncatedParagraphToks = (["Hi"], none) := by
  exact ⟨fun ts => ⟨rfl, rfl⟩, by decide⟩

theorem checkPPrLoop_false : ∀ fuel ts, (checkPPrLoop fuel ts).1 = false := by
  intro fuel
  induction fuel with
  | zero => intro ts; cases ts <;> rfl
  | succ fuel ih =>
    intro ts
    cases ts with
    | nil => rfl
    | cons tk ts =>
      cases tk with
      | start n ns => exact ih ts
      | cdata s => exact ih ts
      | other => exact ih ts
      | close n ns =>
        rw [checkPPrLoop]
        split
        · rfl
        · exact ih ts

theorem extractOrigParaLoop_not_inserted :
    ∀ fuel ts tt, (extractOrigParaLoop tt false fuel ts).2.1 = false := by
  intro fuel
  induction fuel with
  | zero => intro ts tt; cases ts <;> rfl
  | succ fuel ih =>
    intro ts tt
    cases ts with
    | nil => rfl
    | cons tk ts =>
      cases tk with
      | cdata s => exact ih ts tt
      | other => exact ih ts tt
      | start n ns =>
        rw [extractOrigParaLoop]
        split
        · dsimp only
          rw [checkPPrLoop_false fuel ts]
          exact ih _ tt
        · split
          · exact ih _ tt
          · split
            · exact ih _ _
            · split
              · exact ih _ _
              · exact ih ts tt
      | close n ns =>
        rw [extractOrigParaLoop]
        split
        · rfl
        · exact ih ts tt

theorem extractOrigParasLoop_length :
    ∀ fuel ts res, (extractOrigParasLoop res fuel ts).length
      = res.length + countOrigParas fuel ts := by
  intro fuel
  induction fuel with
  | zero =>
    intro ts res
    cases ts <;> simp [extractOrigParasLoop, countOrigParas]
  | succ fuel ih =>
    intro ts res
    cases ts with
    | nil => simp [extractOrigParasLoop, countOrigParas]
    | cons tk ts =>
      cases tk with
      | cdata s => exact ih ts res
      | other => exact ih ts res
      | close n ns => exact ih ts res
      | start n ns =>
        rw [extractOrigParasLoop, countOrigParas]
        split
        · dsimp only
          rw [extractOrigParaLoop_not_inserted fuel ts ""]
          simp only [if_false, Bool.false_eq_true]
          rw [ih _ (res ++ [(extractOrigParaLoop "" false fuel ts).1])]
          simp only [List.length_append, List.length_cons, List.length_nil]
          omega
        · exact ih ts res

/-- C10: checkParagraphPropertiesForInsertion returns false for every
possible input; consequently extractOriginalRunsFromParagraph never reports
a paragraph as inserted, and ORIGINAL-mode extraction emits exactly one
string per paragraph encountered - none is dropped as an inserted
paragraph. -/
theorem C10_never_fully_inserted :
    (∀ fuel ts, (checkPPrLoop fuel ts).1 = false) ∧
    (∀ fuel ts tt, (extractOrigParaLoop tt false fuel ts).2.1 = false) ∧
    (∀ ts, (extractOriginalParagraphs ts).1.length = countOrigParas (ts.length + 1) ts) := by
  refine ⟨checkPPrLoop_false, extractOrigParaLoop_not_inserted, ?_⟩
  intro ts
  have h := extractOrigParasLoop_length (ts.length + 1) ts []
  simpa [extractOriginalParagraphs] using h

/-! ## The byte-preserving streaming rewriter: src/unnamed/part_016 (second
version, lines 294-561)

The Go custDecoder keeps res ([][]byte), lastSaved (byte offset), curPara
and firstRunText (indices into res), rcontent, and a nested loop per level:
processParagraphs -> processRuns -> processText -> processTextContent.
Every loop body reads one token and immediately calls cd.copy(), except that
character data inside a w:t element is withheld from res (aggregated into
rcontent, with lastSaved advanced past it, lines 549-551).  Consequently
every offset ever stored in lastSaved is a token boundary, res gains exactly
one segment per non-withheld token, and the nested loops are equivalent to a
single token-driven state machine whose mode records which loop is active:

  paraLook = the processParagraphs loop (lines 449-467)
  inPara   = the processRuns loop       (lines 471-495)
  inRun    = the processText loop       (lines 523-542)
  inText   = the processTextContent loop (lines 545-561)

Each mode handles exactly the element names its Go loop matches and leaves
every other token to the loop's implicit default (copy verbatim), so the
fold of rewStep below reproduces the Go traversal token for token.
The calls field is a ghost log recording each invocation of the replacer;
it affects nothing else. -/

/-- The (second) Replacer of part_016 line 309: container name and
consolidated paragraph text to the ordered replacement list. -/
def Replacer : Type := String → String → List String

/-- The rewriter modes, one per nested Go loop (see the section comment). -/
inductive RMode where
  | paraLook
  | inPara
  | inRun
  | inText
deriving DecidableEq, Repr

/-- The custDecoder state (part_016 lines 404-416) at token granularity.
input/dec/lastSaved are represented by the position of the fold itself;
curPara and firstRunText are the Go int indices into res (-1 when unset). -/
@[ext]
structure RewSt where
  res : List String
  rcontent : String
  curPara : Int
  firstRunText : Int
  mode : RMode
  calls : List (String × String)
deriving Repr

/-- bytes.Join(res, nil) - the final concatenation of result (line 435). -/
def concatSegs : List String → String
  | [] => ""
  | s :: l => s ++ concatSegs l

/-- insert (part_016 lines 501-520): empty list truncates res back to the
paragraph start (the lastSaved update there is a no-op at token granularity,
the end tag being already flushed); otherwise the escaped first element
overwrites the placeholder, and further elements duplicate the paragraph's
segment range, shifting both indices by the length of the duplicate. -/
def insertParas (st : RewSt) : List String → RewSt
  | [] => { st with res := st.res.take st.curPara.toNat }
  | s :: rest =>
    let st1 := { st with res := st.res.set st.firstRunText.toNat (xmlEscape s) }
    if rest.isEmpty then st1
    else
      let dup := st1.res.drop st1.curPara.toNat
      let st2 := { st1 with
        res := st1.res ++ dup
        curPara := st1.curPara + dup.length
        firstRunText := st1.firstRunText + dup.length }
      insertParas st2 rest

/-- One token of the rewriter traversal (see the section comment for the
mode-to-loop correspondence; each branch cites its Go lines). -/
def rewStep (replace : Replacer) (container : String) (st : RewSt) (t : RawTok) : RewSt :=
  match st.mode with
  | RMode.paraLook =>
    -- processParagraphs body, lines 453-461: copy token, and on w:p mark
    -- the paragraph start and enter processRuns (which resets rcontent and
    -- firstRunText, lines 476-477).
    let st1 := { st with res := st.res ++ [t.raw] }
    match t.tok with
    | Tok.start n ns =>
      if n = "p" ∧ ns then
        { st1 with curPara := ((st1.res.length - 1 : Nat) : Int)
                   rcontent := ""
                   firstRunText := -1
                   mode := RMode.inPara }
      else st1
    | _ => st1
  | RMode.inPara =>
    -- processRuns body, lines 479-494: copy token; w:r enters processText;
    -- /w:p invokes the replacer (if a text placeholder was made) through
    -- insert and returns to the paragraph loop.
    let st1 := { st with res := st.res ++ [t.raw] }
    match t.tok with
    | Tok.start n ns =>
      if n = "r" ∧ ns then { st1 with mode := RMode.inRun } else st1
    | Tok.close n ns =>
      if n = "p" ∧ ns then
        if 0 ≤ st1.firstRunText then
          let st2 := { st1 with mode := RMode.paraLook
                                calls := st1.calls ++ [(container, st1.rcontent)] }
          insertParas st2 (replace container st1.rcontent)
        else { st1 with mode := RMode.paraLook }
      else st1
    | _ => st1
  | RMode.inRun =>
    -- processText body, lines 525-541: copy token; the first w:t of the
    -- paragraph appends the empty placeholder segment and records its
    -- index; /w:r returns to processRuns.
    let st1 := { st with res := st.res ++ [t.raw] }
    match t.tok with
    | Tok.start n ns =>
      if n = "t" ∧ ns then
        if st1.firstRunText < 0 then
          { st1 with res := st1.res ++ [""]
                     firstRunText := (st1.res.length : Int)
                     mode := RMode.inText }
        else { st1 with mode := RMode.inText }
      else st1
    | Tok.close n ns =>
      if n = "r" ∧ ns then { st1 with mode := RMode.inPara } else st1
    | _ => st1
  | RMode.inText =>
    -- processTextContent body, lines 547-559: character data is aggregated
    -- into rcontent and NOT copied (lastSaved is advanced past it); every
    -- other token is copied, and /w:t returns to processText.
    match t.tok with
    | Tok.cdata s => { st with rcontent := st.rcontent ++ s }
    | Tok.close n ns =>
      let st1 := { st with res := st.res ++ [t.raw] }
      if n = "t" ∧ ns then { st1 with mode := RMode.inRun } else st1
    | _ => { st with res := st.res ++ [t.raw] }

/-- newCustDecoder (part_016 lines 418-430): res starts with one empty
segment, indices unset, about to look for paragraphs. -/
def rewInit : RewSt :=
  { res := [""]
    rcontent := ""
    curPara := -1
    firstRunText := -1
    mode := RMode.paraLook
    calls := [] }

/-- The full traversal: processParagraphs over the container's tokens. -/
def rewRun (replace : Replacer) (container : String) (toks : List RawTok) : RewSt :=
  toks.foldl (rewStep replace container) rewInit

/-- result (part_016 lines 433-438): the rewritten container bytes (the
final copy is a no-op at token granularity, everything being flushed). -/
def rewriteBytes (replace : Replacer) (container : String) (toks : List RawTok) : String :=
  concatSegs (rewRun replace container toks).res

/-! ### Well-formed containers, structurally

A well-formed container is a sequence of paragraphs and other tokens; a
paragraph holds runs and other tokens; a run holds text elements and other
tokens; a text element holds character data and other tokens.  The Ok
predicates exclude exactly the tokens that would cut an enclosing element
short or start a nested structure the Go walker would treat specially. -/

/-- An item inside a w:t element: one character-data token, or any other
token (which processTextContent copies verbatim). -/
inductive TItem where
  | text (t : String) (raw : String)
  | tother (tk : RawTok)
deriving Repr

/-- A w:t element: open tag, contents, end tag. -/
structure TextElem where
  openRaw : String
  items : List TItem
  closeRaw : String
deriving Repr

/-- An item inside a w:r element: a text element or any other token. -/
inductive RItem where
  | telem (te : TextElem)
  | rother (tk : RawTok)
deriving Repr

/-- A w:r element. -/
structure RunElem where
  openRaw : String
  items : List RItem
  closeRaw : String
deriving Repr

/-- An item inside a w:p element: a run or any other token. -/
inductive PItem where
  | run (r : RunElem)
  | pother (tk : RawTok)
deriving Repr

/-- A w:p element. -/
structure ParaElem where
  openRaw : String
  items : List PItem
  closeRaw : String
deriving Repr

/-- A container item: a paragraph or any other token. -/
inductive CItem where
  | para (p : ParaElem)
  | cother (tk : RawTok)
deriving Repr

def tokIsCdata : Tok → Bool
  | Tok.cdata _ => true
  | _ => false

def tItemOk : TItem → Bool
  | TItem.text _ _ => true
  | TItem.tother tk => !(tokIsCdata tk.tok) && !(tk.tok == Tok.close "t" true)

def textElemOk (te : TextElem) : Bool :=
  te.items.all tItemOk

def rItemOk : RItem → Bool
  | RItem.telem te => textElemOk te
  | RItem.rother tk => !(tk.tok == Tok.start "t" true) && !(tk.tok == Tok.close "r" true)

def runElemOk (r : RunElem) : Bool :=
  r.items.all rItemOk

def pItemOk : PItem → Bool
  | PItem.run r => runElemOk r
  | PItem.pother tk => !(tk.tok == Tok.start "r" true) && !(tk.tok == Tok.close "p" true)

def paraElemOk (p : ParaElem) : Bool :=
  p.items.all pItemOk

def cItemOk : CItem → Bool
  | CItem.para p => paraElemOk p
  | CItem.cother tk => !(tk.tok == Tok.start "p" true)

def containerOk (items : List CItem) : Bool :=
  items.all cItemOk

/-! Rendering the structure back to the token stream it stands for. -/

def renderTItem : TItem → List RawTok
  | TItem.text t raw => [⟨Tok.cdata t, raw⟩]
  | TItem.tother tk => [tk]

def renderTextElem (te : TextElem) : List RawTok :=
  ⟨Tok.start "t" true, te.openRaw⟩ ::
    (te.items.flatMap renderTItem ++ [⟨Tok.close "t" true, te.closeRaw⟩])

def renderRItem : RItem → List RawTok
  | RItem.telem te => renderTextElem te
  | RItem.rother tk => [tk]

def renderRun (r : RunElem) : List RawTok :=
  ⟨Tok.start "r" true, r.openRaw⟩ ::
    (r.items.flatMap renderRItem ++ [⟨Tok.close "r" true, r.closeRaw⟩])

def renderPItem : PItem → List RawTok
  | PItem.run r => renderRun r
  | PItem.pother tk => [tk]

def renderPara (p : ParaElem) : List RawTok :=
  ⟨Tok.start "p" true, p.openRaw⟩ ::
    (p.items.flatMap renderPItem ++ [⟨Tok.close "p" true, p.closeRaw⟩])

def renderCItem : CItem → List RawTok
  | CItem.para p => renderPara p
  | CItem.cother tk => [tk]

def renderContainer (items : List CItem) : List RawTok :=
  items.flatMap renderCItem

/-- The raw bytes of a token sequence. -/
def rawOfToks (ts : List RawTok) : String :=
  concatSegs (ts.map RawTok.raw)

/-! Segment-level description of what the rewriter emits for each layer.
tSegs/rSegsNoPh/pSegsNoPh are the flushed segments when the paragraph's
placeholder already exists (or no text element occurs); phSplitR/phSplitP
locate the placeholder the first text element creates, splitting the
segments into the parts before and after it. -/

def tSegs : List TItem → List String
  | [] => []
  | TItem.text _ _ :: rest => tSegs rest
  | TItem.tother tk :: rest => tk.raw :: tSegs rest

/-- The character data aggregated into rcontent by a text element body. -/
def tTexts : List TItem → String
  | [] => ""
  | TItem.text t _ :: rest => t ++ tTexts rest
  | TItem.tother _ :: rest => tTexts rest

def rSegsNoPh : List RItem → List String
  | [] => []
  | RItem.telem te :: rest =>
    te.openRaw :: (tSegs te.items ++ [te.closeRaw] ++ rSegsNoPh rest)
  | RItem.rother tk :: rest => tk.raw :: rSegsNoPh rest

def rTexts : List RItem → String
  | [] => ""
  | RItem.telem te :: rest => tTexts te.items ++ rTexts rest
  | RItem.rother _ :: rest => rTexts rest

def pSegsNoPh : List PItem → List String
  | [] => []
  | PItem.run r :: rest =>
    r.openRaw :: (rSegsNoPh r.items ++ [r.closeRaw] ++ pSegsNoPh rest)
  | PItem.pother tk :: rest => tk.raw :: pSegsNoPh rest

/-- The consolidated paragraph text handed to the replacer. -/
def pTexts : List PItem → String
  | [] => ""
  | PItem.run r :: rest => rTexts r.items ++ pTexts rest
  | PItem.pother _ :: rest => pTexts rest

/-- Segments of a run's items split at the placeholder the first text
element introduces (none when the run has no text element). -/
def phSplitR : List RItem → Option (List String × List String)
  | [] => none
  | RItem.rother tk :: rest =>
    (phSplitR rest).map (fun ab => (tk.raw :: ab.1, ab.2))
  | RItem.telem te :: rest =>
    some ([te.openRaw], tSegs te.items ++ [te.closeRaw] ++ rSegsNoPh rest)

/-- Segments of a paragraph's items split at the placeholder (none when no
run holds a text element). -/
def phSplitP : List PItem → Option (List String × List String)
  | [] => none
  | PItem.pother tk :: rest =>
    (phSplitP rest).map (fun ab => (tk.raw :: ab.1, ab.2))
  | PItem.run r :: rest =>
    match phSplitR r.items with
    | some ab => some (r.openRaw :: ab.1, ab.2 ++ [r.closeRaw] ++ pSegsNoPh rest)
    | none =>
      (phSplitP rest).map
        (fun ab => (r.openRaw :: (rSegsNoPh r.items ++ [r.closeRaw] ++ ab.1), ab.2))

/-- Whether a paragraph contains at least one text element (the condition
under which the rewriter made a placeholder and invokes the replacer). -/
def hasTextP (items : List PItem) : Bool :=
  (phSplitP items).isSome

/-- The segments one copy of a paragraph contributes when its placeholder
holds x: every markup byte of the paragraph verbatim, in order, with the
character data of its text elements omitted and x sitting right after the
first text element's open tag. -/
def paraBlockSegs (p : ParaElem) (x : String) : List String :=
  match phSplitP p.items with
  | some ab => p.openRaw :: (ab.1 ++ [x] ++ ab.2 ++ [p.closeRaw])
  | none => p.openRaw :: (pSegsNoPh p.items ++ [p.closeRaw])

/-- The byte output of one paragraph copy with placeholder content x. -/
def outPara (p : ParaElem) (x : String) : String :=
  concatSegs (paraBlockSegs p x)

def paraText (p : ParaElem) : String :=
  pTexts p.items

/-- The segments a container item contributes to the rewriter output:
other tokens verbatim; a paragraph with no text element verbatim; a
paragraph with text once per replacer result element, each copy carrying
its own escaped element. -/
def outSegsCItem (replace : Replacer) (container : String) : CItem → List String
  | CItem.cother tk => [tk.raw]
  | CItem.para p =>
    if hasTextP p.items then
      (replace container (paraText p)).flatMap (fun s => paraBlockSegs p (xmlEscape s))
    else p.openRaw :: (pSegsNoPh p.items ++ [p.closeRaw])

/-- The expected rewriter output over a container. -/
def rewriteExpected (replace : Replacer) (container : String) (items : List CItem) : String :=
  concatSegs (items.map (fun it => concatSegs (outSegsCItem replace container it)))

/-- The expected replacer invocations: one per paragraph holding a text
element, with the consolidated paragraph text. -/
def callsExpected (container : String) (items : List CItem) : List (String × String) :=
  items.flatMap (fun it =>
    match it with
    | CItem.para p => if hasTextP p.items then [(container, paraText p)] else []
    | CItem.cother _ => [])

/-! ### Auxiliary list/string lemmas for the rewriter proofs -/

theorem concatSegs_append : ∀ l1 l2 : List String,
    concatSegs (l1 ++ l2) = concatSegs l1 ++ concatSegs l2 := by
  intro l1 l2
  induction l1 with
  | nil => simp [concatSegs, String.empty_append]
  | cons s l ih => simp [concatSegs, ih, String.append_assoc]

theorem set_middle : ∀ (X : List String) (v w : String) (Y : List String),
    (X ++ v :: Y).set X.length w = X ++ w :: Y := by
  intro X v w Y
  induction X with
  | nil => rfl
  | cons x X ih => simp [List.set, ih]

/-- insertParas on a state whose res splits as R0, the duplicable block
A ++ v :: B2 (placeholder v at offset A.length inside the block), with
curPara at the block start and firstRunText at the placeholder: the result
replaces the block by one copy per list element, each carrying its escaped
element, and touches nothing else. -/
theorem insertParas_spec :
    ∀ (L : List String) (R0 A B2 : List String) (v : String) (st : RewSt),
      st.res = R0 ++ A ++ v :: B2 →
      st.curPara = (R0.length : Int) →
      st.firstRunText = ((R0.length + A.length : Nat) : Int) →
      (insertParas st L).res = R0 ++ L.flatMap (fun s => A ++ xmlEscape s :: B2) ∧
      (insertParas st L).mode = st.mode ∧
      (insertParas st L).calls = st.calls ∧
      (insertParas st L).rcontent = st.rcontent := by
  intro L
  induction L with
  | nil =>
    intro R0 A B2 v st hres hcp hfrt
    refine ⟨?_, rfl, rfl, rfl⟩
    show (st.res.take st.curPara.toNat) = _
    rw [hres, hcp]
    simp only [Int.toNat_natCast, List.flatMap_nil, List.append_nil, List.append_assoc]
    exact List.take_left' rfl
  | cons s rest ih =>
    intro R0 A B2 v st hres hcp hfrt
    rw [insertParas]
    have hset : (st.res.set st.firstRunText.toNat (xmlEscape s))
        = R0 ++ A ++ xmlEscape s :: B2 := by
      rw [hres, hfrt]
      simp only [Int.toNat_natCast]
      rw [← List.length_append R0 A]
      exact set_middle (R0 ++ A) v (xmlEscape s) B2
    by_cases hrest : rest.isEmpty
    · rw [if_pos hrest]
      have hrnil : rest = [] := by
        cases rest
        · rfl
        · simp [List.isEmpty] at hrest
      subst hrnil
      refine ⟨?_, rfl, rfl, rfl⟩
      show (st.res.set st.firstRunText.toNat (xmlEscape s)) = _
      rw [hset]
      simp [List.append_assoc]
    · have hAres : st.res.set st.firstRunText.toNat (xmlEscape s)
          = R0 ++ (A ++ xmlEscape s :: B2) := by
        rw [hset, List.append_assoc]
      have hdup : (st.res.set st.firstRunText.toNat (xmlEscape s)).drop st.curPara.toNat
          = A ++ xmlEscape s :: B2 := by
        rw [hAres, hcp]
        simp only [Int.toNat_natCast]
        exact List.drop_left R0 _
      have hlen : ((st.res.set st.firstRunText.toNat (xmlEscape s)).drop st.curPara.toNat).length
          = A.length + B2.length + 1 := by
        rw [hdup]
        simp only [List.length_append, List.length_cons]
        omega
      rw [if_neg hrest]
      dsimp only
      have hih := ih (R0 ++ (A ++ xmlEscape s :: B2)) A B2 (xmlEscape s)
        { st with
          res := (st.res.set st.firstRunText.toNat (xmlEscape s)) ++
            ((st.res.set st.firstRunText.toNat (xmlEscape s)).drop st.curPara.toNat)
          curPara := st.curPara +
            (((st.res.set st.firstRunText.toNat (xmlEscape s)).drop st.curPara.toNat).length : Int)
          firstRunText := st.firstRunText +
            (((st.res.set st.firstRunText.toNat (xmlEscape s)).drop st.curPara.toNat).length : Int) }
        (by
          show (st.res.set st.firstRunText.toNat (xmlEscape s)) ++
              ((st.res.set st.firstRunText.toNat (xmlEscape s)).drop st.curPara.toNat)
              = R0 ++ (A ++ xmlEscape s :: B2) ++ A ++ xmlEscape s :: B2
          rw [hdup, hAres]
          simp [List.append_assoc])
        (by
          show st.curPara +
              (((st.res.set st.firstRunText.toNat (xmlEscape s)).drop st.curPara.toNat).length : Int)
              = ((R0 ++ (A ++ xmlEscape s :: B2)).length : Int)
          rw [hlen, hcp]
          simp only [List.length_append, List.length_cons]
          push_cast
          omega)
        (by
          show st.firstRunText +
              (((st.res.set st.firstRunText.toNat (xmlEscape s)).drop st.curPara.toNat).length : Int)
              = (((R0 ++ (A ++ xmlEscape s :: B2)).length + A.length : Nat) : Int)
          rw [hlen, hfrt]
          simp only [List.length_append, List.length_cons]
          push_cast
          omega)
      refine ⟨?_, hih.2.1, hih.2.2.1, hih.2.2.2⟩
      rw [hih.1]
      simp [List.append_assoc]

/-! ### The rewriter fold, level by level -/

/-- Folding the body of a text element (mode inText): other tokens are
flushed, character data is aggregated; nothing else changes. -/
theorem foldT_spec (replace : Replacer) (container : String) :
    ∀ (items : List TItem), items.all tItemOk = true →
    ∀ (sres : List String) (src : String) (scp sfrt : Int)
      (scalls : List (String × String)),
      (items.flatMap renderTItem).foldl (rewStep replace container)
          ⟨sres, src, scp, sfrt, RMode.inText, scalls⟩ =
        ⟨sres ++ tSegs items, src ++ tTexts items, scp, sfrt, RMode.inText, scalls⟩ := by
  intro items
  induction items with
  | nil =>
    intro _ sres src scp sfrt scalls
    simp [tSegs, tTexts, concatSegs, String.append_empty]
  | cons it rest ih =>
    intro hok sres src scp sfrt scalls
    simp only [List.all_cons, Bool.and_eq_true] at hok
    cases it with
    | text t raw =>
      simp only [List.flatMap_cons, renderTItem, List.singleton_append, List.foldl_cons]
      rw [show rewStep replace container ⟨sres, src, scp, sfrt, RMode.inText, scalls⟩
            ⟨Tok.cdata t, raw⟩
          = ⟨sres, src ++ t, scp, sfrt, RMode.inText, scalls⟩ from rfl]
      rw [ih hok.2]
      simp [tSegs, tTexts, concatSegs, String.append_assoc]
    | tother tk =>
      simp only [List.flatMap_cons, renderTItem, List.singleton_append, List.foldl_cons]
      have hstep : rewStep replace container ⟨sres, src, scp, sfrt, RMode.inText, scalls⟩ tk
          = ⟨sres ++ [tk.raw], src, scp, sfrt, RMode.inText, scalls⟩ := by
        have hc := hok.1
        simp only [tItemOk, Bool.and_eq_true, Bool.not_eq_true'] at hc
        obtain ⟨hc1, hc2⟩ := hc
        rw [rewStep]
        match htk : tk.tok with
        | Tok.cdata s => rw [htk] at hc1; simp [tokIsCdata] at hc1
        | Tok.start n ns => rfl
        | Tok.other => rfl
        | Tok.close n ns =>
          rw [htk] at hc2
          simp only [beq_eq_false_iff_ne, ne_eq] at hc2
          have hne : ¬(n = "t" ∧ ns = true) := by
            intro ⟨h1, h2⟩
            apply hc2
            rw [h1, h2]
          simp only [if_neg hne]
      rw [hstep, ih hok.2]
      simp [tSegs, tTexts, concatSegs, String.empty_append, List.append_assoc]

/-- Folding one whole text element from mode inRun when the paragraph has no
placeholder yet: the open tag is flushed, the empty placeholder segment is
appended right after it and firstRunText records its index, the body and the
end tag follow. -/
theorem foldTE_neg (replace : Replacer) (container : String)
    (te : TextElem) (hok : textElemOk te = true) :
    ∀ (sres : List String) (src : String) (scp : Int) (sfrt : Int)
      (scalls : List (String × String)), sfrt < 0 →
      (renderTextElem te).foldl (rewStep replace container)
          ⟨sres, src, scp, sfrt, RMode.inRun, scalls⟩ =
        ⟨sres ++ te.openRaw :: "" :: (tSegs te.items ++ [te.closeRaw]),
         src ++ tTexts te.items, scp, ((sres.length + 1 : Nat) : Int),
         RMode.inRun, scalls⟩ := by
  intro sres src scp sfrt scalls hneg
  rw [renderTextElem, List.foldl_cons]
  have hstep : rewStep replace container ⟨sres, src, scp, sfrt, RMode.inRun, scalls⟩
      ⟨Tok.start "t" true, te.openRaw⟩
      = ⟨(sres ++ [te.openRaw]) ++ [""], src, scp,
         (((sres ++ [te.openRaw]).length : Nat) : Int), RMode.inText, scalls⟩ := by
    rw [rewStep]
    simp [hneg]
  rw [hstep, List.foldl_append, foldT_spec replace container te.items hok]
  have hstep2 : ∀ (r : List String) (rc : String),
      [(⟨Tok.close "t" true, te.closeRaw⟩ : RawTok)].foldl (rewStep replace container)
          ⟨r, rc, scp, (((sres ++ [te.openRaw]).length : Nat) : Int), RMode.inText, scalls⟩ =
        ⟨r ++ [te.closeRaw], rc, scp, (((sres ++ [te.openRaw]).length : Nat) : Int),
         RMode.inRun, scalls⟩ := by
    intro r rc
    rw [List.foldl_cons, List.foldl_nil, rewStep]
    simp
  rw [hstep2]
  simp [List.append_assoc, List.length_append]

/-- Folding one whole text element from mode inRun when the placeholder
already exists: only flushing and aggregation, firstRunText untouched. -/
theorem foldTE_pos (replace : Replacer) (container : String)
    (te : TextElem) (hok : textElemOk te = true) :
    ∀ (sres : List String) (src : String) (scp : Int) (sfrt : Int)
      (scalls : List (String × String)), 0 ≤ sfrt →
      (renderTextElem te).foldl (rewStep replace container)
          ⟨sres, src, scp, sfrt, RMode.inRun, scalls⟩ =
        ⟨sres ++ te.openRaw :: (tSegs te.items ++ [te.closeRaw]),
         src ++ tTexts te.items, scp, sfrt, RMode.inRun, scalls⟩ := by
  intro sres src scp sfrt scalls hpos
  rw [renderTextElem, List.foldl_cons]
  have hstep : rewStep replace container ⟨sres, src, scp, sfrt, RMode.inRun, scalls⟩
      ⟨Tok.start "t" true, te.openRaw⟩
      = ⟨sres ++ [te.openRaw], src, scp, sfrt, RMode.inText, scalls⟩ := by
    rw [rewStep]
    simp [show ¬ sfrt < 0 by omega]
  rw [hstep, List.foldl_append, foldT_spec replace container te.items hok]
  have hstep2 : ∀ (r : List String) (rc : String),
      [(⟨Tok.close "t" true, te.closeRaw⟩ : RawTok)].foldl (rewStep replace container)
          ⟨r, rc, scp, sfrt, RMode.inText, scalls⟩ =
        ⟨r ++ [te.closeRaw], rc, scp, sfrt, RMode.inRun, scalls⟩ := by
    intro r rc
    rw [List.foldl_cons, List.foldl_nil, rewStep]
    simp
  rw [hstep2]
  simp [List.append_assoc]

/-- A token foreign to the run structure is flushed verbatim in mode inRun. -/
theorem stepInRun_other (replace : Replacer) (container : String)
    (tk : RawTok) (h1 : (tk.tok == Tok.start "t" true) = false)
    (h2 : (tk.tok == Tok.close "r" true) = false)
    (sres : List String) (src : String) (scp sfrt : Int)
    (scalls : List (String × String)) :
    rewStep replace container ⟨sres, src, scp, sfrt, RMode.inRun, scalls⟩ tk
      = ⟨sres ++ [tk.raw], src, scp, sfrt, RMode.inRun, scalls⟩ := by
  rw [rewStep]
  match htk : tk.tok with
  | Tok.cdata s => rfl
  | Tok.other => rfl
  | Tok.start n ns =>
    rw [htk] at h1
    simp only [beq_eq_false_iff_ne, ne_eq] at h1
    have hne : ¬(n = "t" ∧ ns = true) := by
      intro ⟨ha, hb⟩
      exact h1 (by rw [ha, hb])
    simp only [if_neg hne]
  | Tok.close n ns =>
    rw [htk] at h2
    simp only [beq_eq_false_iff_ne, ne_eq] at h2
    have hne : ¬(n = "r" ∧ ns = true) := by
      intro ⟨ha, hb⟩
      exact h2 (by rw [ha, hb])
    simp only [if_neg hne]

/-- Folding a run's items from mode inRun with the placeholder already made:
flush everything (text elements keeping their markup only), aggregate the
text, touch nothing else. -/
theorem foldRI_pos (replace : Replacer) (container : String) :
    ∀ (items : List RItem), items.all rItemOk = true →
    ∀ (sres : List String) (src : String) (scp sfrt : Int)
      (scalls : List (String × String)), 0 ≤ sfrt →
      (items.flatMap renderRItem).foldl (rewStep replace container)
          ⟨sres, src, scp, sfrt, RMode.inRun, scalls⟩ =
        ⟨sres ++ rSegsNoPh items, src ++ rTexts items, scp, sfrt, RMode.inRun, scalls⟩ := by
  intro items
  induction items with
  | nil =>
    intro _ sres src scp sfrt scalls _
    simp [rSegsNoPh, rTexts, concatSegs, String.append_empty]
  | cons it rest ih =>
    intro hok sres src scp sfrt scalls hpos
    simp only [List.all_cons, Bool.and_eq_true] at hok
    cases it with
    | telem te =>
      simp only [List.flatMap_cons, renderRItem, List.foldl_append]
      rw [foldTE_pos replace container te hok.1 sres src scp sfrt scalls hpos]
      rw [ih hok.2 _ _ _ _ _ hpos]
      simp [rSegsNoPh, rTexts, concatSegs, List.append_assoc, String.append_assoc]
    | rother tk =>
      simp only [List.flatMap_cons, renderRItem, List.singleton_append, List.foldl_cons]
      have hc := hok.1
      simp only [rItemOk, Bool.and_eq_true, Bool.not_eq_true'] at hc
      rw [stepInRun_other replace container tk hc.1 hc.2]
      rw [ih hok.2 _ _ _ _ _ hpos]
      simp [rSegsNoPh, rTexts, concatSegs, List.append_assoc, String.empty_append]

/-- Folding a run's items from mode inRun with no placeholder yet and no
text element among the items: everything is flushed, firstRunText stays. -/
theorem foldRI_neg_none (replace : Replacer) (container : String) :
    ∀ (items : List RItem), items.all rItemOk = true → phSplitR items = none →
    ∀ (sres : List String) (src : String) (scp sfrt : Int)
      (scalls : List (String × String)),
      (items.flatMap renderRItem).foldl (rewStep replace container)
          ⟨sres, src, scp, sfrt, RMode.inRun, scalls⟩ =
        ⟨sres ++ rSegsNoPh items, src ++ rTexts items, scp, sfrt, RMode.inRun, scalls⟩ := by
  intro items
  induction items with
  | nil =>
    intro _ _ sres src scp sfrt scalls
    simp [rSegsNoPh, rTexts, concatSegs, String.append_empty]
  | cons it rest ih =>
    intro hok hsplit sres src scp sfrt scalls
    simp only [List.all_cons, Bool.and_eq_true] at hok
    cases it with
    | telem te => simp [phSplitR] at hsplit
    | rother tk =>
      rw [phSplitR] at hsplit
      have hrest : phSplitR rest = none := by
        cases hr : phSplitR rest
        · rfl
        · rw [hr] at hsplit; simp at hsplit
      simp only [List.flatMap_cons, renderRItem, List.singleton_append, List.foldl_cons]
      have hc := hok.1
      simp only [rItemOk, Bool.and_eq_true, Bool.not_eq_true'] at hc
      rw [stepInRun_other replace container tk hc.1 hc.2]
      rw [ih hok.2 hrest]
      simp [rSegsNoPh, rTexts, concatSegs, List.append_assoc, String.empty_append]

/-- Folding a run's items from mode inRun with no placeholder yet, when the
items hold a text element: the segments split as A ++ placeholder ++ B and
firstRunText lands on the placeholder index. -/
theorem foldRI_neg_some (replace : Replacer) (container : String) :
    ∀ (items : List RItem), items.all rItemOk = true →
    ∀ (a b : List String), phSplitR items = some (a, b) →
    ∀ (sres : List String) (src : String) (scp sfrt : Int)
      (scalls : List (String × String)), sfrt < 0 →
      (items.flatMap renderRItem).foldl (rewStep replace container)
          ⟨sres, src, scp, sfrt, RMode.inRun, scalls⟩ =
        ⟨sres ++ a ++ "" :: b, src ++ rTexts items, scp,
         ((sres.length + a.length : Nat) : Int), RMode.inRun, scalls⟩ := by
  intro items
  induction items with
  | nil =>
    intro _ a b hsplit
    simp [phSplitR] at hsplit
  | cons it rest ih =>
    intro hok a b hsplit sres src scp sfrt scalls hneg
    simp only [List.all_cons, Bool.and_eq_true] at hok
    cases it with
    | telem te =>
      rw [phSplitR] at hsplit
      simp only [Option.some.injEq, Prod.mk.injEq] at hsplit
      obtain ⟨ha, hb⟩ := hsplit
      simp only [List.flatMap_cons, renderRItem, List.foldl_append]
      rw [foldTE_neg replace container te hok.1 sres src scp sfrt scalls hneg]
      rw [foldRI_pos replace container rest hok.2 _ _ _ _ _
        (by omega : (0 : Int) ≤ ((sres.length + 1 : Nat) : Int))]
      subst ha
      subst hb
      refine RewSt.ext ?_ ?_ rfl ?_ rfl rfl
      · simp [List.append_assoc]
      · simp [rTexts, concatSegs, String.append_assoc]
      · simp only [List.length_cons, List.length_nil]
    | rother tk =>
      rw [phSplitR] at hsplit
      match hr : phSplitR rest with
      | none =>
        rw [hr] at hsplit
        exact Option.noConfusion hsplit
      | some ab =>
        rw [hr] at hsplit
        simp only [Option.map_some', Option.some.injEq, Prod.mk.injEq] at hsplit
        obtain ⟨ha, hb⟩ := hsplit
        simp only [List.flatMap_cons, renderRItem, List.singleton_append, List.foldl_cons]
        have hc := hok.1
        simp only [rItemOk, Bool.and_eq_true, Bool.not_eq_true'] at hc
        rw [stepInRun_other replace container tk hc.1 hc.2]
        rw [ih hok.2 ab.1 ab.2 (by rw [hr]) _ _ _ _ _ hneg]
        subst ha
        subst hb
        refine RewSt.ext ?_ ?_ rfl ?_ rfl rfl
        · simp [List.append_assoc]
        · simp [rTexts, concatSegs, String.empty_append]
        · simp only [List.length_append, List.length_cons, List.length_nil]
          omega

/-- A token foreign to the paragraph structure is flushed verbatim in mode
inPara. -/
theorem stepInPara_other (replace : Replacer) (container : String)
    (tk : RawTok) (h1 : (tk.tok == Tok.start "r" true) = false)
    (h2 : (tk.tok == Tok.close "p" true) = false)
    (sres : List String) (src : String) (scp sfrt : Int)
    (scalls : List (String × String)) :
    rewStep replace container ⟨sres, src, scp, sfrt, RMode.inPara, scalls⟩ tk
      = ⟨sres ++ [tk.raw], src, scp, sfrt, RMode.inPara, scalls⟩ := by
  rw [rewStep]
  match htk : tk.tok with
  | Tok.cdata s => rfl
  | Tok.other => rfl
  | Tok.start n ns =>
    rw [htk] at h1
    simp only [beq_eq_false_iff_ne, ne_eq] at h1
    have hne : ¬(n = "r" ∧ ns = true) := by
      intro ⟨ha, hb⟩
      exact h1 (by rw [ha, hb])
    simp only [if_neg hne]
  | Tok.close n ns =>
    rw [htk] at h2
    simp only [beq_eq_false_iff_ne, ne_eq] at h2
    have hne : ¬(n = "p" ∧ ns = true) := by
      intro ⟨ha, hb⟩
      exact h2 (by rw [ha, hb])
    simp only [if_neg hne]

/-- Folding one whole run from mode inPara with the placeholder already
made. -/
theorem foldRun_pos (replace : Replacer) (container : String)
    (r : RunElem) (hok : runElemOk r = true)
    (sres : List String) (src : String) (scp sfrt : Int)
    (scalls : List (String × String)) (hpos : 0 ≤ sfrt) :
    (renderRun r).foldl (rewStep replace container)
        ⟨sres, src, scp, sfrt, RMode.inPara, scalls⟩ =
      ⟨sres ++ r.openRaw :: (rSegsNoPh r.items ++ [r.closeRaw]),
       src ++ rTexts r.items, scp, sfrt, RMode.inPara, scalls⟩ := by
  rw [renderRun, List.foldl_cons]
  have hstep : rewStep replace container ⟨sres, src, scp, sfrt, RMode.inPara, scalls⟩
      ⟨Tok.start "r" true, r.openRaw⟩
      = ⟨sres ++ [r.openRaw], src, scp, sfrt, RMode.inRun, scalls⟩ := by
    rw [rewStep]
    simp
  rw [hstep, List.foldl_append, foldRI_pos replace container r.items hok _ _ _ _ _ hpos]
  have hstep2 : ∀ (rr : List String) (rc : String),
      [(⟨Tok.close "r" true, r.closeRaw⟩ : RawTok)].foldl (rewStep replace container)
          ⟨rr, rc, scp, sfrt, RMode.inRun, scalls⟩ =
        ⟨rr ++ [r.closeRaw], rc, scp, sfrt, RMode.inPara, scalls⟩ := by
    intro rr rc
    rw [List.foldl_cons, List.foldl_nil, rewStep]
    simp
  rw [hstep2]
  simp [List.append_assoc]

/-- Folding one whole run from mode inPara with no placeholder yet and no
text element in the run. -/
theorem foldRun_neg_none (replace : Replacer) (container : String)
    (r : RunElem) (hok : runElemOk r = true) (hsplit : phSplitR r.items = none)
    (sres : List String) (src : String) (scp sfrt : Int)
    (scalls : List (String × String)) :
    (renderRun r).foldl (rewStep replace container)
        ⟨sres, src, scp, sfrt, RMode.inPara, scalls⟩ =
      ⟨sres ++ r.openRaw :: (rSegsNoPh r.items ++ [r.closeRaw]),
       src ++ rTexts r.items, scp, sfrt, RMode.inPara, scalls⟩ := by
  rw [renderRun, List.foldl_cons]
  have hstep : rewStep replace container ⟨sres, src, scp, sfrt, RMode.inPara, scalls⟩
      ⟨Tok.start "r" true, r.openRaw⟩
      = ⟨sres ++ [r.openRaw], src, scp, sfrt, RMode.inRun, scalls⟩ := by
    rw [rewStep]
    simp
  rw [hstep, List.foldl_append, foldRI_neg_none replace container r.items hok hsplit]
  have hstep2 : ∀ (rr : List String) (rc : String),
      [(⟨Tok.close "r" true, r.closeRaw⟩ : RawTok)].foldl (rewStep replace container)
          ⟨rr, rc, scp, sfrt, RMode.inRun, scalls⟩ =
        ⟨rr ++ [r.closeRaw], rc, scp, sfrt, RMode.inPara, scalls⟩ := by
    intro rr rc
    rw [List.foldl_cons, List.foldl_nil, rewStep]
    simp
  rw [hstep2]
  simp [List.append_assoc]

/-- Folding one whole run from mode inPara with no placeholder yet, when
the run holds the paragraph's first text element. -/
theorem foldRun_neg_some (replace : Replacer) (container : String)
    (r : RunElem) (hok : runElemOk r = true)
    (a b : List String) (hsplit : phSplitR r.items = some (a, b))
    (sres : List String) (src : String) (scp sfrt : Int)
    (scalls : List (String × String)) (hneg : sfrt < 0) :
    (renderRun r).foldl (rewStep replace container)
        ⟨sres, src, scp, sfrt, RMode.inPara, scalls⟩ =
      ⟨sres ++ r.openRaw :: (a ++ "" :: (b ++ [r.closeRaw])),
       src ++ rTexts r.items, scp, ((sres.length + 1 + a.length : Nat) : Int),
       RMode.inPara, scalls⟩ := by
  rw [renderRun, List.foldl_cons]
  have hstep : rewStep replace container ⟨sres, src, scp, sfrt, RMode.inPara, scalls⟩
      ⟨Tok.start "r" true, r.openRaw⟩
      = ⟨sres ++ [r.openRaw], src, scp, sfrt, RMode.inRun, scalls⟩ := by
    rw [rewStep]
    simp
  rw [hstep, List.foldl_append,
    foldRI_neg_some replace container r.items hok a b hsplit _ _ _ _ _ hneg]
  have hstep2 : ∀ (rr : List String) (rc : String) (fr : Int),
      [(⟨Tok.close "r" true, r.closeRaw⟩ : RawTok)].foldl (rewStep replace container)
          ⟨rr, rc, scp, fr, RMode.inRun, scalls⟩ =
        ⟨rr ++ [r.closeRaw], rc, scp, fr, RMode.inPara, scalls⟩ := by
    intro rr rc fr
    rw [List.foldl_cons, List.foldl_nil, rewStep]
    simp
  rw [hstep2]
  refine RewSt.ext ?_ rfl rfl ?_ rfl rfl
  · simp [List.append_assoc]
  · simp only [List.length_append, List.length_cons, List.length_nil]

/-- Folding a paragraph's items from mode inPara with the placeholder
already made. -/
theorem foldPI_pos (replace : Replacer) (container : String) :
    ∀ (items : List PItem), items.all pItemOk = true →
    ∀ (sres : List String) (src : String) (scp sfrt : Int)
      (scalls : List (String × String)), 0 ≤ sfrt →
      (items.flatMap renderPItem).foldl (rewStep replace container)
          ⟨sres, src, scp, sfrt, RMode.inPara, scalls⟩ =
        ⟨sres ++ pSegsNoPh items, src ++ pTexts items, scp, sfrt, RMode.inPara, scalls⟩ := by
  intro items
  induction items with
  | nil =>
    intro _ sres src scp sfrt scalls _
    simp [pSegsNoPh, pTexts, concatSegs, String.append_empty]
  | cons it rest ih =>
    intro hok sres src scp sfrt scalls hpos
    simp only [List.all_cons, Bool.and_eq_true] at hok
    cases it with
    | run r =>
      simp only [List.flatMap_cons, renderPItem, List.foldl_append]
      rw [foldRun_pos replace container r hok.1 sres src scp sfrt scalls hpos]
      rw [ih hok.2 _ _ _ _ _ hpos]
      simp [pSegsNoPh, pTexts, concatSegs, List.append_assoc, String.append_assoc]
    | pother tk =>
      simp only [List.flatMap_cons, renderPItem, List.singleton_append, List.foldl_cons]
      have hc := hok.1
      simp only [pItemOk, Bool.and_eq_true, Bool.not_eq_true'] at hc
      rw [stepInPara_other replace container tk hc.1 hc.2]
      rw [ih hok.2 _ _ _ _ _ hpos]
      simp [pSegsNoPh, pTexts, concatSegs, List.append_assoc, String.empty_append]

/-- Folding a paragraph's items from mode inPara, no placeholder yet and no
text element anywhere. -/
theorem foldPI_neg_none (replace : Replacer) (container : String) :
    ∀ (items : List PItem), items.all pItemOk = true → phSplitP items = none →
    ∀ (sres : List String) (src : String) (scp sfrt : Int)
      (scalls : List (String × String)),
      (items.flatMap renderPItem).foldl (rewStep replace container)
          ⟨sres, src, scp, sfrt, RMode.inPara, scalls⟩ =
        ⟨sres ++ pSegsNoPh items, src ++ pTexts items, scp, sfrt, RMode.inPara, scalls⟩ := by
  intro items
  induction items with
  | nil =>
    intro _ _ sres src scp sfrt scalls
    simp [pSegsNoPh, pTexts, concatSegs, String.append_empty]
  | cons it rest ih =>
    intro hok hsplit sres src scp sfrt scalls
    simp only [List.all_cons, Bool.and_eq_true] at hok
    cases it with
    | run r =>
      rw [phSplitP] at hsplit
      have hrn : phSplitR r.items = none := by
        cases hr : phSplitR r.items with
        | none => rfl
        | some ab => rw [hr] at hsplit; exact Option.noConfusion hsplit
      rw [hrn] at hsplit
      have hrest : phSplitP rest = none := by
        cases hp : phSplitP rest with
        | none => rfl
        | some ab => rw [hp] at hsplit; exact Option.noConfusion hsplit
      simp only [List.flatMap_cons, renderPItem, List.foldl_append]
      rw [foldRun_neg_none replace container r hok.1 hrn]
      rw [ih hok.2 hrest]
      simp [pSegsNoPh, pTexts, concatSegs, List.append_assoc, String.append_assoc]
    | pother tk =>
      rw [phSplitP] at hsplit
      have hrest : phSplitP rest = none := by
        cases hp : phSplitP rest with
        | none => rfl
        | some ab => rw [hp] at hsplit; exact Option.noConfusion hsplit
      simp only [List.flatMap_cons, renderPItem, List.singleton_append, List.foldl_cons]
      have hc := hok.1
      simp only [pItemOk, Bool.and_eq_true, Bool.not_eq_true'] at hc
      rw [stepInPara_other replace container tk hc.1 hc.2]
      rw [ih hok.2 hrest]
      simp [pSegsNoPh, pTexts, concatSegs, List.append_assoc, String.empty_append]

/-- Folding a paragraph's items from mode inPara, no placeholder yet, when
the items hold a text element: the segments split at the placeholder and
firstRunText records its index. -/
theorem foldPI_neg_some (replace : Replacer) (container : String) :
    ∀ (items : List PItem), items.all pItemOk = true →
    ∀ (a b : List String), phSplitP items = some (a, b) →
    ∀ (sres : List String) (src : String) (scp sfrt : Int)
      (scalls : List (String × String)), sfrt < 0 →
      (items.flatMap renderPItem).foldl (rewStep replace container)
          ⟨sres, src, scp, sfrt, RMode.inPara, scalls⟩ =
        ⟨sres ++ a ++ "" :: b, src ++ pTexts items, scp,
         ((sres.length + a.length : Nat) : Int), RMode.inPara, scalls⟩ := by
  intro items
  induction items with
  | nil =>
    intro _ a b hsplit
    simp [phSplitP] at hsplit
  | cons it rest ih =>
    intro hok a b hsplit sres src scp sfrt scalls hneg
    simp only [List.all_cons, Bool.and_eq_true] at hok
    cases it with
    | run r =>
      rw [phSplitP] at hsplit
      match hr : phSplitR r.items with
      | some ab =>
        rw [hr] at hsplit
        simp only [Option.some.injEq, Prod.mk.injEq] at hsplit
        obtain ⟨ha, hb⟩ := hsplit
        simp only [List.flatMap_cons, renderPItem, List.foldl_append]
        rw [foldRun_neg_some replace container r hok.1 ab.1 ab.2 (by rw [hr]) _ _ _ _ _ hneg]
        rw [foldPI_pos replace container rest hok.2 _ _ _ _ _
          (by omega : (0 : Int) ≤ ((sres.length + 1 + ab.1.length : Nat) : Int))]
        subst ha
        subst hb
        refine RewSt.ext ?_ ?_ rfl ?_ rfl rfl
        · simp [List.append_assoc]
        · simp [pTexts, concatSegs, String.append_assoc]
        · simp only [List.length_cons, List.length_nil]
          omega
      | none =>
        rw [hr] at hsplit
        match hp : phSplitP rest with
        | none =>
          rw [hp] at hsplit
          exact Option.noConfusion hsplit
        | some ab =>
          rw [hp] at hsplit
          simp only [Option.map_some', Option.some.injEq, Prod.mk.injEq] at hsplit
          obtain ⟨ha, hb⟩ := hsplit
          simp only [List.flatMap_cons, renderPItem, List.foldl_append]
          rw [foldRun_neg_none replace container r hok.1 hr]
          rw [ih hok.2 ab.1 ab.2 (by rw [hp]) _ _ _ _ _ hneg]
          subst ha
          subst hb
          refine RewSt.ext ?_ ?_ rfl ?_ rfl rfl
          · simp [List.append_assoc]
          · simp [pTexts, concatSegs, String.append_assoc]
          · simp only [List.length_append, List.length_cons, List.length_nil]
            omega
    | pother tk =>
      rw [phSplitP] at hsplit
      match hp : phSplitP rest with
      | none =>
        rw [hp] at hsplit
        exact Option.noConfusion hsplit
      | some ab =>
        rw [hp] at hsplit
        simp only [Option.map_some', Option.some.injEq, Prod.mk.injEq] at hsplit
        obtain ⟨ha, hb⟩ := hsplit
        simp only [List.flatMap_cons, renderPItem, List.singleton_append, List.foldl_cons]
        have hc := hok.1
        simp only [pItemOk, Bool.and_eq_true, Bool.not_eq_true'] at hc
        rw [stepInPara_other replace container tk hc.1 hc.2]
        rw [ih hok.2 ab.1 ab.2 (by rw [hp]) _ _ _ _ _ hneg]
        subst ha
        subst hb
        refine RewSt.ext ?_ ?_ rfl ?_ rfl rfl
        · simp [List.append_assoc]
        · simp [pTexts, concatSegs, String.empty_append]
        · simp only [List.length_append, List.length_cons, List.length_nil]
          omega

/-- Folding one whole paragraph with no text element in any run: every
token is flushed verbatim, the replacer is not involved, and the state
returns to paragraph lookout with the call log untouched. -/
theorem foldPara_none (replace : Replacer) (container : String)
    (p : ParaElem) (hok : paraElemOk p = true) (hsplit : phSplitP p.items = none)
    (sres : List String) (src : String) (scp sfrt : Int)
    (scalls : List (String × String)) :
    (renderPara p).foldl (rewStep replace container)
        ⟨sres, src, scp, sfrt, RMode.paraLook, scalls⟩ =
      ⟨sres ++ p.openRaw :: (pSegsNoPh p.items ++ [p.closeRaw]), pTexts p.items,
       (sres.length : Int), -1, RMode.paraLook, scalls⟩ := by
  rw [renderPara, List.foldl_cons]
  have hstep : rewStep replace container ⟨sres, src, scp, sfrt, RMode.paraLook, scalls⟩
      ⟨Tok.start "p" true, p.openRaw⟩
      = ⟨sres ++ [p.openRaw], "", (((sres ++ [p.openRaw]).length - 1 : Nat) : Int),
         -1, RMode.inPara, scalls⟩ := by
    rw [rewStep]
    simp
  rw [hstep, List.foldl_append, foldPI_neg_none replace container p.items hok hsplit]
  have hstep2 : ∀ (rr : List String) (rc : String) (cp : Int),
      [(⟨Tok.close "p" true, p.closeRaw⟩ : RawTok)].foldl (rewStep replace container)
          ⟨rr, rc, cp, -1, RMode.inPara, scalls⟩ =
        ⟨rr ++ [p.closeRaw], rc, cp, -1, RMode.paraLook, scalls⟩ := by
    intro rr rc cp
    rw [List.foldl_cons, List.foldl_nil, rewStep]
    have hneg : ¬(0 ≤ (-1 : Int)) := by omega
    simp [hneg]
  rw [hstep2]
  refine RewSt.ext ?_ ?_ ?_ rfl rfl rfl
  · simp [List.append_assoc]
  · simp [String.empty_append]
  · simp

/-- Folding one whole paragraph that holds a text element: the output block
is one copy of the paragraph per replacer result element (each with its
escaped element in the placeholder), the mode returns to paragraph lookout,
and the call log gains exactly this paragraph's consolidated text. -/
theorem foldPara_some (replace : Replacer) (container : String)
    (p : ParaElem) (hok : paraElemOk p = true)
    (a b : List String) (hsplit : phSplitP p.items = some (a, b))
    (sres : List String) (src : String) (scp sfrt : Int)
    (scalls : List (String × String)) :
    ((renderPara p).foldl (rewStep replace container)
        ⟨sres, src, scp, sfrt, RMode.paraLook, scalls⟩).res
      = sres ++ (replace container (pTexts p.items)).flatMap
          (fun s => paraBlockSegs p (xmlEscape s)) ∧
    ((renderPara p).foldl (rewStep replace container)
        ⟨sres, src, scp, sfrt, RMode.paraLook, scalls⟩).mode = RMode.paraLook ∧
    ((renderPara p).foldl (rewStep replace container)
        ⟨sres, src, scp, sfrt, RMode.paraLook, scalls⟩).calls
      = scalls ++ [(container, pTexts p.items)] := by
  rw [renderPara, List.foldl_cons]
  have hstep : rewStep replace container ⟨sres, src, scp, sfrt, RMode.paraLook, scalls⟩
      ⟨Tok.start "p" true, p.openRaw⟩
      = ⟨sres ++ [p.openRaw], "", (((sres ++ [p.openRaw]).length - 1 : Nat) : Int),
         -1, RMode.inPara, scalls⟩ := by
    rw [rewStep]
    simp
  rw [hstep, List.foldl_append,
    foldPI_neg_some replace container p.items hok a b hsplit _ _ _ _ _ (by omega)]
  rw [String.empty_append]
  have hstep2 : ∀ (rr : List String) (rc : String) (cp : Int) (nn : Nat),
      [(⟨Tok.close "p" true, p.closeRaw⟩ : RawTok)].foldl (rewStep replace container)
          ⟨rr, rc, cp, ((nn : Nat) : Int), RMode.inPara, scalls⟩ =
        insertParas ⟨rr ++ [p.closeRaw], rc, cp, ((nn : Nat) : Int), RMode.paraLook,
          scalls ++ [(container, rc)]⟩ (replace container rc) := by
    intro rr rc cp nn
    rw [List.foldl_cons, List.foldl_nil, rewStep]
    have hge : (0 : Int) ≤ ((nn : Nat) : Int) := by omega
    simp [hge]
  rw [hstep2]
  have hins := insertParas_spec (replace container (pTexts p.items))
    sres (p.openRaw :: a) (b ++ [p.closeRaw]) ""
    ⟨((sres ++ [p.openRaw]) ++ a ++ "" :: b) ++ [p.closeRaw], pTexts p.items,
     (((sres ++ [p.openRaw]).length - 1 : Nat) : Int),
     (((sres ++ [p.openRaw]).length + a.length : Nat) : Int), RMode.paraLook,
     scalls ++ [(container, pTexts p.items)]⟩
    (by simp [List.append_assoc])
    (by simp)
    (by
      show (((sres ++ [p.openRaw]).length + a.length : Nat) : Int)
          = ((sres.length + (p.openRaw :: a).length : Nat) : Int)
      simp only [List.length_append, List.length_cons, List.length_nil]
      omega)
  have hfun : (fun s => (p.openRaw :: a) ++ xmlEscape s :: (b ++ [p.closeRaw]))
      = (fun s => paraBlockSegs p (xmlEscape s)) := by
    funext s
    rw [paraBlockSegs, hsplit]
    simp [List.append_assoc]
  refine ⟨?_, ?_, ?_⟩
  · rw [hins.1, hfun]
  · rw [hins.2.1]
  · rw [hins.2.2.1]

/-- A token that is not a paragraph start is flushed verbatim in mode
paraLook. -/
theorem stepParaLook_other (replace : Replacer) (container : String)
    (tk : RawTok) (h1 : (tk.tok == Tok.start "p" true) = false)
    (sres : List String) (src : String) (scp sfrt : Int)
    (scalls : List (String × String)) :
    rewStep replace container ⟨sres, src, scp, sfrt, RMode.paraLook, scalls⟩ tk
      = ⟨sres ++ [tk.raw], src, scp, sfrt, RMode.paraLook, scalls⟩ := by
  rw [rewStep]
  match htk : tk.tok with
  | Tok.cdata s => rfl
  | Tok.other => rfl
  | Tok.close n ns => rfl
  | Tok.start n ns =>
    rw [htk] at h1
    simp only [beq_eq_false_iff_ne, ne_eq] at h1
    have hne : ¬(n = "p" ∧ ns = true) := by
      intro ⟨ha, hb⟩
      exact h1 (by rw [ha, hb])
    simp only [if_neg hne]

/-- The container-level fold: starting in mode paraLook, the rewriter
appends exactly the expected output segments of each container item, logs
exactly the expected replacer calls, and ends in mode paraLook. -/
theorem foldC_spec (replace : Replacer) (container : String) :
    ∀ (citems : List CItem), containerOk citems = true →
    ∀ (sres : List String) (src : String) (scp sfrt : Int)
      (scalls : List (String × String)),
      ((renderContainer citems).foldl (rewStep replace container)
          ⟨sres, src, scp, sfrt, RMode.paraLook, scalls⟩).res
        = sres ++ citems.flatMap (outSegsCItem replace container) ∧
      ((renderContainer citems).foldl (rewStep replace container)
          ⟨sres, src, scp, sfrt, RMode.paraLook, scalls⟩).mode = RMode.paraLook ∧
      ((renderContainer citems).foldl (rewStep replace container)
          ⟨sres, src, scp, sfrt, RMode.paraLook, scalls⟩).calls
        = scalls ++ callsExpected container citems := by
  intro citems
  induction citems with
  | nil =>
    intro _ sres src scp sfrt scalls
    simp [renderContainer, callsExpected]
  | cons it rest ih =>
    intro hok sres src scp sfrt scalls
    simp only [containerOk, List.all_cons, Bool.and_eq_true] at hok
    cases it with
    | cother tk =>
      simp only [renderContainer, List.flatMap_cons, renderCItem, List.singleton_append,
        List.foldl_cons]
      have hc := hok.1
      simp only [cItemOk, Bool.not_eq_true'] at hc
      rw [stepParaLook_other replace container tk hc]
      obtain ⟨ih1, ih2, ih3⟩ := ih hok.2 (sres ++ [tk.raw]) src scp sfrt scalls
      rw [renderContainer] at ih1 ih2 ih3
      refine ⟨?_, ih2, ?_⟩
      · rw [ih1]
        simp [outSegsCItem, List.append_assoc]
      · rw [ih3]
        simp [callsExpected]
    | para p =>
      simp only [renderContainer, List.flatMap_cons, renderCItem, List.foldl_append]
      cases hsplit : phSplitP p.items with
      | none =>
        rw [foldPara_none replace container p hok.1 hsplit sres src scp sfrt scalls]
        obtain ⟨ih1, ih2, ih3⟩ := ih hok.2
          (sres ++ p.openRaw :: (pSegsNoPh p.items ++ [p.closeRaw]))
          (pTexts p.items) (sres.length : Int) (-1) scalls
        rw [renderContainer] at ih1 ih2 ih3
        refine ⟨?_, ih2, ?_⟩
        · rw [ih1]
          have hout : outSegsCItem replace container (CItem.para p)
              = p.openRaw :: (pSegsNoPh p.items ++ [p.closeRaw]) := by
            rw [outSegsCItem]
            rw [if_neg]
            rw [hasTextP, hsplit]
            simp
          rw [hout]
          simp [List.append_assoc]
        · rw [ih3]
          have hcalls : callsExpected container (CItem.para p :: rest)
              = callsExpected container rest := by
            rw [callsExpected]
            simp only [List.flatMap_cons]
            rw [hasTextP, hsplit]
            simp [callsExpected]
          rw [hcalls]
      | some ab =>
        obtain ⟨h1, h2, h3⟩ := foldPara_some replace container p hok.1 ab.1 ab.2
          (by rw [hsplit]) sres src scp sfrt scalls
        have heta : (renderPara p).foldl (rewStep replace container)
            ⟨sres, src, scp, sfrt, RMode.paraLook, scalls⟩ =
            ⟨((renderPara p).foldl (rewStep replace container)
                ⟨sres, src, scp, sfrt, RMode.paraLook, scalls⟩).res,
             ((renderPara p).foldl (rewStep replace container)
                ⟨sres, src, scp, sfrt, RMode.paraLook, scalls⟩).rcontent,
             ((renderPara p).foldl (rewStep replace container)
                ⟨sres, src, scp, sfrt, RMode.paraLook, scalls⟩).curPara,
             ((renderPara p).foldl (rewStep replace container)
                ⟨sres, src, scp, sfrt, RMode.paraLook, scalls⟩).firstRunText,
             RMode.paraLook,
             ((renderPara p).foldl (rewStep replace container)
                ⟨sres, src, scp, sfrt, RMode.paraLook, scalls⟩).calls⟩ :=
          RewSt.ext rfl rfl rfl rfl h2 rfl
        rw [heta]
        obtain ⟨ih1, ih2, ih3⟩ := ih hok.2 _ _ _ _ _
        rw [renderContainer] at ih1 ih2 ih3
        refine ⟨?_, ih2, ?_⟩
        · rw [ih1, h1]
          have hout : outSegsCItem replace container (CItem.para p)
              = (replace container (paraText p)).flatMap
                  (fun s => paraBlockSegs p (xmlEscape s)) := by
            rw [outSegsCItem]
            rw [if_pos]
            rw [hasTextP, hsplit]
            rfl
          rw [hout, paraText]
          simp [List.append_assoc]
        · rw [ih3, h3]
          have hcalls : callsExpected container (CItem.para p :: rest)
              = (container, paraText p) :: callsExpected container rest := by
            rw [callsExpected]
            simp only [List.flatMap_cons]
            rw [hasTextP, hsplit]
            simp [callsExpected, paraText]
          rw [hcalls, paraText]
          simp [List.append_assoc]

/-- concatSegs distributes over flatMap as the per-item concatenation. -/
theorem concatSegs_flatMap {α : Type} (f : α → List String) :
    ∀ l : List α, concatSegs (l.flatMap f)
      = concatSegs (l.map (fun x => concatSegs (f x))) := by
  intro l
  induction l with
  | nil => rfl
  | cons x rest ih =>
    simp only [List.flatMap_cons, List.map_cons]
    rw [concatSegs_append, ih]
    rfl

/-- The rewriter master theorem: on a well-formed container, the output
bytes are exactly the expected output (markup verbatim, text content
replaced per paragraph by the replacer's escaped results, with paragraph
discard and duplication as the list length dictates), and the replacer is
invoked exactly once per text-holding paragraph, in document order, with
the consolidated paragraph text. -/
theorem rewriter_master (replace : Replacer) (container : String)
    (citems : List CItem) (hok : containerOk citems = true) :
    rewriteBytes replace container (renderContainer citems)
      = rewriteExpected replace container citems ∧
    (rewRun replace container (renderContainer citems)).calls
      = callsExpected container citems := by
  obtain ⟨h1, h2, h3⟩ := foldC_spec replace container citems hok [""] "" (-1) (-1) []
  constructor
  · rw [rewriteBytes]
    rw [show rewRun replace container (renderContainer citems)
        = (renderContainer citems).foldl (rewStep replace container)
            ⟨[""], "", -1, -1, RMode.paraLook, []⟩ from rfl]
    rw [h1]
    rw [show ([""] : List String) ++ citems.flatMap (outSegsCItem replace container)
        = "" :: citems.flatMap (outSegsCItem replace container) from rfl]
    rw [show concatSegs ("" :: citems.flatMap (outSegsCItem replace container))
        = "" ++ concatSegs (citems.flatMap (outSegsCItem replace container)) from rfl]
    rw [String.empty_append, concatSegs_flatMap]
    rfl
  · rw [show rewRun replace container (renderContainer citems)
        = (renderContainer citems).foldl (rewStep replace container)
            ⟨[""], "", -1, -1, RMode.paraLook, []⟩ from rfl]
    rw [h3]
    rfl

/-! ### Claims about the rewriter -/

theorem rawOfToks_append (ts1 ts2 : List RawTok) :
    rawOfToks (ts1 ++ ts2) = rawOfToks ts1 ++ rawOfToks ts2 := by
  rw [rawOfToks, List.map_append, concatSegs_append]
  rfl

/-- In a run with no text element, the no-placeholder segments are exactly
the raw bytes of its rendered items. -/
theorem rSegsNoPh_raw : ∀ (items : List RItem), phSplitR items = none →
    concatSegs (rSegsNoPh items) = rawOfToks (items.flatMap renderRItem) := by
  intro items
  induction items with
  | nil => intro _; rfl
  | cons it rest ih =>
    intro hsplit
    cases it with
    | telem te => simp [phSplitR] at hsplit
    | rother tk =>
      rw [phSplitR] at hsplit
      have hrest : phSplitR rest = none := by
        cases hr : phSplitR rest with
        | none => rfl
        | some ab => rw [hr] at hsplit; exact Option.noConfusion hsplit
      simp only [rSegsNoPh, List.flatMap_cons]
      rw [rawOfToks_append]
      rw [show concatSegs (tk.raw :: rSegsNoPh rest)
          = tk.raw ++ concatSegs (rSegsNoPh rest) from rfl]
      rw [ih hrest]
      rw [show rawOfToks (renderRItem (RItem.rother tk)) = tk.raw ++ "" from rfl]
      rw [String.append_empty]

/-- In a paragraph with no text element, the no-placeholder segments are
exactly the raw bytes of its rendered items. -/
theorem pSegsNoPh_raw : ∀ (items : List PItem), phSplitP items = none →
    concatSegs (pSegsNoPh items) = rawOfToks (items.flatMap renderPItem) := by
  intro items
  induction items with
  | nil => intro _; rfl
  | cons it rest ih =>
    intro hsplit
    cases it with
    | pother tk =>
      rw [phSplitP] at hsplit
      have hrest : phSplitP rest = none := by
        cases hr : phSplitP rest with
        | none => rfl
        | some ab => rw [hr] at hsplit; exact Option.noConfusion hsplit
      simp only [pSegsNoPh, List.flatMap_cons]
      rw [rawOfToks_append]
      rw [show concatSegs (tk.raw :: pSegsNoPh rest)
          = tk.raw ++ concatSegs (pSegsNoPh rest) from rfl]
      rw [ih hrest]
      rw [show rawOfToks (renderPItem (PItem.pother tk)) = tk.raw ++ "" from rfl]
      rw [String.append_empty]
    | run r =>
      rw [phSplitP] at hsplit
      have hrn : phSplitR r.items = none := by
        cases hr : phSplitR r.items with
        | none => rfl
        | some ab => rw [hr] at hsplit; exact Option.noConfusion hsplit
      rw [hrn] at hsplit
      have hrest : phSplitP rest = none := by
        cases hp : phSplitP rest with
        | none => rfl
        | some ab => rw [hp] at hsplit; exact Option.noConfusion hsplit
      simp only [pSegsNoPh, List.flatMap_cons]
      rw [rawOfToks_append]
      rw [show renderPItem (PItem.run r) = renderRun r from rfl, renderRun]
      rw [show (⟨Tok.start "r" true, r.openRaw⟩ : RawTok) ::
            (r.items.flatMap renderRItem ++ [⟨Tok.close "r" true, r.closeRaw⟩])
          = [(⟨Tok.start "r" true, r.openRaw⟩ : RawTok)] ++
            (r.items.flatMap renderRItem ++ [⟨Tok.close "r" true, r.closeRaw⟩]) from rfl]
      rw [rawOfToks_append, rawOfToks_append]
      rw [show concatSegs (r.openRaw :: (rSegsNoPh r.items ++ [r.closeRaw] ++ pSegsNoPh rest))
          = r.openRaw ++ concatSegs (rSegsNoPh r.items ++ [r.closeRaw] ++ pSegsNoPh rest)
          from rfl]
      rw [concatSegs_append, concatSegs_append, rSegsNoPh_raw r.items hrn, ih hrest]
      rw [show rawOfToks [(⟨Tok.start "r" true, r.openRaw⟩ : RawTok)]
          = r.openRaw ++ "" from rfl]
      rw [show rawOfToks [(⟨Tok.close "r" true, r.closeRaw⟩ : RawTok)]
          = r.closeRaw ++ "" from rfl]
      rw [show concatSegs [r.closeRaw] = r.closeRaw ++ "" from rfl]
      simp [String.append_assoc, String.append_empty]

/-- The verbatim-output branch of outSegsCItem concatenates to exactly the
raw input bytes of the paragraph. -/
theorem textless_out (p : ParaElem) (hsplit : phSplitP p.items = none) :
    concatSegs (p.openRaw :: (pSegsNoPh p.items ++ [p.closeRaw]))
      = rawOfToks (renderPara p) := by
  rw [renderPara]
  rw [show (⟨Tok.start "p" true, p.openRaw⟩ : RawTok) ::
        (p.items.flatMap renderPItem ++ [⟨Tok.close "p" true, p.closeRaw⟩])
      = [(⟨Tok.start "p" true, p.openRaw⟩ : RawTok)] ++
        (p.items.flatMap renderPItem ++ [⟨Tok.close "p" true, p.closeRaw⟩]) from rfl]
  rw [rawOfToks_append, rawOfToks_append]
  rw [show concatSegs (p.openRaw :: (pSegsNoPh p.items ++ [p.closeRaw]))
      = p.openRaw ++ concatSegs (pSegsNoPh p.items ++ [p.closeRaw]) from rfl]
  rw [concatSegs_append, pSegsNoPh_raw p.items hsplit]
  rw [show rawOfToks [(⟨Tok.start "p" true, p.openRaw⟩ : RawTok)]
      = p.openRaw ++ "" from rfl]
  rw [show rawOfToks [(⟨Tok.close "p" true, p.closeRaw⟩ : RawTok)]
      = p.closeRaw ++ "" from rfl]
  rw [show concatSegs [p.closeRaw] = p.closeRaw ++ "" from rfl]
  simp [String.append_assoc, String.append_empty]

/-- The per-item output the C1 claim describes: other tokens and paragraphs
without text are reproduced byte-for-byte; a paragraph with text is
reproduced with every markup byte verbatim, in order, exactly once, and
only its first-run placeholder differing - it holds the XML-escaped sole
replacement string (outPara makes that byte layout explicit). -/
def c1ItemOut (replace : Replacer) (container : String) : CItem → String
  | CItem.cother tk => tk.raw
  | CItem.para p =>
    if hasTextP p.items then
      outPara p (xmlEscape ((replace container (paraText p)).headD ""))
    else rawOfToks (renderPara p)

/-- C1: For every well-formed container and every replacer that returns a
one-element list for every paragraph text, the rewriter's output equals the
input byte-for-byte everywhere outside the first-run text placeholder of
each paragraph: non-paragraph bytes and textless paragraphs verbatim, and
each text paragraph's markup verbatim, in order, exactly once, with the
escaped replacement in the placeholder (and the paragraph's own character
data elided), as c1ItemOut states. -/
theorem C1_byte_preservation (replace : Replacer) (container : String)
    (citems : List CItem) (hok : containerOk citems = true)
    (hone : ∀ s, (replace container s).length = 1) :
    rewriteBytes replace container (renderContainer citems)
      = concatSegs (citems.map (c1ItemOut replace container)) := by
  rw [(rewriter_master replace container citems hok).1, rewriteExpected]
  have hitem : ∀ it ∈ citems,
      concatSegs (outSegsCItem replace container it) = c1ItemOut replace container it := by
    intro it _
    cases it with
    | cother tk =>
      show tk.raw ++ "" = tk.raw
      exact String.append_empty tk.raw
    | para p =>
      rw [outSegsCItem, c1ItemOut]
      by_cases ht : hasTextP p.items
      · rw [if_pos ht, if_pos ht]
        obtain ⟨s, hs⟩ := List.length_eq_one.1 (hone (paraText p))
        rw [hs]
        simp only [List.flatMap_cons, List.flatMap_nil, List.append_nil, List.headD_cons]
        rfl
      · rw [if_neg ht, if_neg ht]
        have hsplit : phSplitP p.items = none := by
          rw [hasTextP] at ht
          cases hp : phSplitP p.items with
          | none => rfl
          | some ab => rw [hp] at ht; simp at ht
        exact textless_out p hsplit
  rw [List.map_congr_left hitem]

/-- A concrete text element, run and paragraphs for witness containers. -/
def wTE1 : TextElem :=
  { openRaw := "<w:t>", items := [TItem.text "Hello" "Hello"], closeRaw := "</w:t>" }

def wRun1 : RunElem :=
  { openRaw := "<w:r>", items := [RItem.telem wTE1], closeRaw := "</w:r>" }

/-- A paragraph with text "Hello" (properties token, then one run). -/
def wPara1 : ParaElem :=
  { openRaw := "<w:p>"
    items := [PItem.pother ⟨Tok.other, "<w:pPr/>"⟩, PItem.run wRun1]
    closeRaw := "</w:p>" }

/-- A paragraph with no text element in any run. -/
def wPara2 : ParaElem :=
  { openRaw := "<w:p >"
    items := [PItem.pother ⟨Tok.other, "<w:x/>"⟩]
    closeRaw := "</w:p >" }

def c1WitnessContainer : List CItem :=
  [CItem.cother ⟨Tok.other, "<w:body>"⟩, CItem.para wPara1, CItem.para wPara2,
   CItem.cother ⟨Tok.other, "</w:body>"⟩]

/-! ### Splitting the expected output and calls across a container -/

theorem rewriteExpected_append (replace : Replacer) (container : String)
    (l1 l2 : List CItem) :
    rewriteExpected replace container (l1 ++ l2)
      = rewriteExpected replace container l1 ++ rewriteExpected replace container l2 := by
  rw [rewriteExpected, List.map_append, concatSegs_append]
  rfl

theorem rewriteExpected_cons (replace : Replacer) (container : String)
    (it : CItem) (rest : List CItem) :
    rewriteExpected replace container (it :: rest)
      = concatSegs (outSegsCItem replace container it)
          ++ rewriteExpected replace container rest := rfl

theorem callsExpected_append (container : String) (l1 l2 : List CItem) :
    callsExpected container (l1 ++ l2)
      = callsExpected container l1 ++ callsExpected container l2 := by
  simp [callsExpected, List.flatMap_append]

theorem callsExpected_cons_para (container : String) (p : ParaElem)
    (rest : List CItem) :
    callsExpected container (CItem.para p :: rest)
      = (if hasTextP p.items then [(container, paraText p)] else [])
          ++ callsExpected container rest := by
  simp [callsExpected, List.flatMap_cons]

/-- Well-formedness of a container with one item removed, and of the item. -/
theorem containerOk_sub (l1 l2 : List CItem) (it : CItem)
    (hok : containerOk (l1 ++ it :: l2) = true) :
    containerOk (l1 ++ l2) = true ∧ cItemOk it = true := by
  simp only [containerOk, List.all_append, List.all_cons, Bool.and_eq_true] at hok ⊢
  exact ⟨⟨hok.1, hok.2.2⟩, hok.2.1⟩

/-- Number of paragraphs in the input container. -/
def inParaCount : List CItem → Nat
  | [] => 0
  | CItem.para _ :: rest => inParaCount rest + 1
  | CItem.cother _ :: rest => inParaCount rest

/-- Number of paragraph blocks the rewriter emits: outSegsCItem gives each
text paragraph one paraBlockSegs block (one open tag through end tag span)
per replacer result element, and each textless paragraph its verbatim
block. -/
def outParaCount (replace : Replacer) (container : String) : List CItem → Nat
  | [] => 0
  | CItem.para p :: rest =>
    (if hasTextP p.items then (replace container (paraText p)).length else 1)
      + outParaCount replace container rest
  | CItem.cother _ :: rest => outParaCount replace container rest

theorem inParaCount_append : ∀ l1 l2 : List CItem,
    inParaCount (l1 ++ l2) = inParaCount l1 + inParaCount l2 := by
  intro l1 l2
  induction l1 with
  | nil => simp [inParaCount]
  | cons it rest ih =>
    cases it with
    | para p => simp [inParaCount, ih]; omega
    | cother tk => simp [inParaCount, ih]

theorem outParaCount_append (replace : Replacer) (container : String) :
    ∀ l1 l2 : List CItem,
    outParaCount replace container (l1 ++ l2)
      = outParaCount replace container l1 + outParaCount replace container l2 := by
  intro l1 l2
  induction l1 with
  | nil => simp [outParaCount]
  | cons it rest ih =>
    cases it with
    | para p => simp [outParaCount, ih]; omega
    | cother tk => simp [outParaCount, ih]

/-- When the replacer answers a singleton for every text paragraph of l,
the emitted paragraph-block count equals the input paragraph count. -/
theorem outParaCount_eq_in (replace : Replacer) (container : String) :
    ∀ l : List CItem,
    (∀ q, CItem.para q ∈ l → hasTextP q.items = true →
      (replace container (paraText q)).length = 1) →
    outParaCount replace container l = inParaCount l := by
  intro l
  induction l with
  | nil => intro _; rfl
  | cons it rest ih =>
    intro hothers
    have hrest : ∀ q, CItem.para q ∈ rest → hasTextP q.items = true →
        (replace container (paraText q)).length = 1 := by
      intro q hq ht
      exact hothers q (List.mem_cons_of_mem it hq) ht
    cases it with
    | cother tk =>
      rw [show outParaCount replace container (CItem.cother tk :: rest)
          = outParaCount replace container rest from rfl]
      rw [show inParaCount (CItem.cother tk :: rest) = inParaCount rest from rfl]
      exact ih hrest
    | para p =>
      rw [show outParaCount replace container (CItem.para p :: rest)
          = (if hasTextP p.items then (replace container (paraText p)).length else 1)
              + outParaCount replace container rest from rfl]
      rw [show inParaCount (CItem.para p :: rest) = inParaCount rest + 1 from rfl]
      rw [ih hrest]
      by_cases ht : hasTextP p.items
      · rw [if_pos ht, hothers p (List.mem_cons_self _ _) ht]
        omega
      · rw [if_neg ht]
        omega

/-- Concrete instantiation of C1 on a two-paragraph container with an
echoing replacer. -/
theorem C1_byte_preservation_witness :
    (containerOk c1WitnessContainer = true ∧
      ∀ s, ((fun (_ : String) (s : String) => [s]) "c" s).length = 1) ∧
    rewriteBytes (fun _ s => [s]) "c" (renderContainer c1WitnessContainer)
      = concatSegs (c1WitnessContainer.map (c1ItemOut (fun _ s => [s]) "c")) :=
  ⟨⟨by decide, fun s => rfl⟩,
    C1_byte_preservation (fun _ s => [s]) "c" c1WitnessContainer (by decide) (fun s => rfl)⟩

/-- C8: For every replacer, a paragraph with no text in any run is never
passed to the replacer (the call log splits into the entries of pre and
post, with none for it) and its bytes are reproduced verbatim in place in
the output. -/
theorem C8_empty_paragraph_untouched (replace : Replacer) (container : String)
    (pre post : List CItem) (p : ParaElem)
    (hok : containerOk (pre ++ CItem.para p :: post) = true)
    (hnotext : hasTextP p.items = false) :
    rewriteBytes replace container (renderContainer (pre ++ CItem.para p :: post))
      = rewriteExpected replace container pre ++ rawOfToks (renderPara p)
          ++ rewriteExpected replace container post
    ∧ (rewRun replace container (renderContainer (pre ++ CItem.para p :: post))).calls
      = callsExpected container pre ++ callsExpected container post := by
  obtain ⟨h1, h2⟩ := rewriter_master replace container (pre ++ CItem.para p :: post) hok
  have hsplit : phSplitP p.items = none := by
    rw [hasTextP] at hnotext
    cases hp : phSplitP p.items with
    | none => rfl
    | some ab => rw [hp] at hnotext; simp at hnotext
  have hout : concatSegs (outSegsCItem replace container (CItem.para p))
      = rawOfToks (renderPara p) := by
    rw [show outSegsCItem replace container (CItem.para p)
        = if hasTextP p.items then
            (replace container (paraText p)).flatMap
              (fun s => paraBlockSegs p (xmlEscape s))
          else p.openRaw :: (pSegsNoPh p.items ++ [p.closeRaw]) from rfl]
    simp only [hnotext, Bool.false_eq_true, if_false]
    exact textless_out p hsplit
  constructor
  · rw [h1, rewriteExpected_append, rewriteExpected_cons, hout,
      ← String.append_assoc]
  · rw [h2, callsExpected_append, callsExpected_cons_para]
    simp only [hnotext, Bool.false_eq_true, if_false, List.nil_append]

def c8Pre : List CItem := [CItem.cother ⟨Tok.other, "<w:body>"⟩]

def c8Post : List CItem := [CItem.cother ⟨Tok.other, "</w:body>"⟩]

/-- Concrete instantiation of C8 on a textless paragraph with a replacer
that would discard anything it were given. -/
theorem C8_empty_paragraph_untouched_witness :
    (containerOk (c8Pre ++ CItem.para wPara2 :: c8Post) = true ∧
      hasTextP wPara2.items = false) ∧
    (rewriteBytes (fun _ _ => []) "c"
        (renderContainer (c8Pre ++ CItem.para wPara2 :: c8Post))
      = rewriteExpected (fun _ _ => []) "c" c8Pre ++ rawOfToks (renderPara wPara2)
          ++ rewriteExpected (fun _ _ => []) "c" c8Post
    ∧ (rewRun (fun _ _ => []) "c"
          (renderContainer (c8Pre ++ CItem.para wPara2 :: c8Post))).calls
        = callsExpected "c" c8Pre ++ callsExpected "c" c8Post) :=
  ⟨⟨by decide, by decide⟩,
    C8_empty_paragraph_untouched (fun _ _ => []) "c" c8Pre c8Post wPara2
      (by decide) (by decide)⟩

/-- C5: a text paragraph for which the replacer answers the empty list is
removed: the output is the expected bytes of pre immediately followed by
the expected bytes of post (flushing resumes at the byte past the removed
end tag, all other items' output untouched), equal to rewriting the
container with that paragraph's byte span deleted from the input; and when
the replacer answers singletons for every other text paragraph, the
emitted paragraph count is the input count minus one. -/
theorem C5_discard_paragraph (replace : Replacer) (container : String)
    (pre post : List CItem) (p : ParaElem)
    (hok : containerOk (pre ++ CItem.para p :: post) = true)
    (htext : hasTextP p.items = true)
    (hdrop : replace container (paraText p) = []) :
    rewriteBytes replace container (renderContainer (pre ++ CItem.para p :: post))
      = rewriteExpected replace container pre ++ rewriteExpected replace container post
    ∧ rewriteBytes replace container (renderContainer (pre ++ post))
        = rewriteBytes replace container (renderContainer (pre ++ CItem.para p :: post))
    ∧ ((∀ q, CItem.para q ∈ pre ++ post → hasTextP q.items = true →
          (replace container (paraText q)).length = 1) →
        outParaCount replace container (pre ++ CItem.para p :: post) + 1
          = inParaCount (pre ++ CItem.para p :: post)) := by
  obtain ⟨h1, _⟩ := rewriter_master replace container (pre ++ CItem.para p :: post) hok
  have hout : concatSegs (outSegsCItem replace container (CItem.para p)) = "" := by
    rw [show outSegsCItem replace container (CItem.para p)
        = if hasTextP p.items then
            (replace container (paraText p)).flatMap
              (fun s => paraBlockSegs p (xmlEscape s))
          else p.openRaw :: (pSegsNoPh p.items ++ [p.closeRaw]) from rfl]
    rw [if_pos htext, hdrop]
    rfl
  have main1 : rewriteBytes replace container
      (renderContainer (pre ++ CItem.para p :: post))
      = rewriteExpected replace container pre
          ++ rewriteExpected replace container post := by
    rw [h1, rewriteExpected_append, rewriteExpected_cons, hout, String.empty_append]
  obtain ⟨hok2, _⟩ := containerOk_sub pre post (CItem.para p) hok
  obtain ⟨h1b, _⟩ := rewriter_master replace container (pre ++ post) hok2
  refine ⟨main1, ?_, ?_⟩
  · rw [h1b, rewriteExpected_append, main1]
  · intro hothers
    rw [outParaCount_append, inParaCount_append]
    rw [show outParaCount replace container (CItem.para p :: post)
        = (if hasTextP p.items then (replace container (paraText p)).length else 1)
            + outParaCount replace container post from rfl]
    rw [if_pos htext, hdrop]
    rw [show inParaCount (CItem.para p :: post) = inParaCount post + 1 from rfl]
    rw [outParaCount_eq_in replace container pre
      (fun q hq ht => hothers q (List.mem_append_left post hq) ht)]
    rw [outParaCount_eq_in replace container post
      (fun q hq ht => hothers q (List.mem_append_right pre hq) ht)]
    simp only [List.length_nil]
    omega

/-- Concrete instantiation of C5: the "Hello" paragraph is dropped by a
replacer answering the empty list; pre and post hold no paragraph, so the
singleton side condition is vacuous and the count drops from 1 to 0. -/
theorem C5_discard_paragraph_witness :
    (containerOk (c8Pre ++ CItem.para wPara1 :: c8Post) = true ∧
      hasTextP wPara1.items = true ∧
      (fun (_ : String) (_ : String) => ([] : List String)) "c" (paraText wPara1)
        = []) ∧
    (rewriteBytes (fun _ _ => []) "c"
        (renderContainer (c8Pre ++ CItem.para wPara1 :: c8Post))
      = rewriteExpected (fun _ _ => []) "c" c8Pre
          ++ rewriteExpected (fun _ _ => []) "c" c8Post
    ∧ rewriteBytes (fun _ _ => []) "c" (renderContainer (c8Pre ++ c8Post))
        = rewriteBytes (fun _ _ => []) "c"
            (renderContainer (c8Pre ++ CItem.para wPara1 :: c8Post))
    ∧ ((∀ q, CItem.para q ∈ c8Pre ++ c8Post → hasTextP q.items = true →
          ((fun (_ : String) (_ : String) => ([] : List String)) "c"
            (paraText q)).length = 1) →
        outParaCount (fun _ _ => []) "c" (c8Pre ++ CItem.para wPara1 :: c8Post) + 1
          = inParaCount (c8Pre ++ CItem.para wPara1 :: c8Post))) :=
  ⟨⟨by decide, by decide, rfl⟩,
    C5_discard_paragraph (fun _ _ => []) "c" c8Pre c8Post wPara1
      (by decide) (by decide) rfl⟩

/-- C6: a text paragraph for which the replacer answers N > 1 strings is
emitted N times in document order - one full copy of its markup per list
element, the k-th copy carrying the escaped k-th element in its first-run
placeholder (outPara makes the shared structural markup explicit) - and
when the replacer answers singletons for every other text paragraph, the
emitted paragraph count is the input count plus N - 1. -/
theorem C6_duplicate_paragraph (replace : Replacer) (container : String)
    (pre post : List CItem) (p : ParaElem) (L : List String)
    (hok : containerOk (pre ++ CItem.para p :: post) = true)
    (htext : hasTextP p.items = true)
    (hL : replace container (paraText p) = L)
    (hN : 2 ≤ L.length) :
    rewriteBytes replace container (renderContainer (pre ++ CItem.para p :: post))
      = rewriteExpected replace container pre
          ++ concatSegs (L.map (fun s => outPara p (xmlEscape s)))
          ++ rewriteExpected replace container post
    ∧ ((∀ q, CItem.para q ∈ pre ++ post → hasTextP q.items = true →
          (replace container (paraText q)).length = 1) →
        outParaCount replace container (pre ++ CItem.para p :: post)
          = inParaCount (pre ++ CItem.para p :: post) + (L.length - 1)) := by
  obtain ⟨h1, _⟩ := rewriter_master replace container (pre ++ CItem.para p :: post) hok
  have hout : concatSegs (outSegsCItem replace container (CItem.para p))
      = concatSegs (L.map (fun s => outPara p (xmlEscape s))) := by
    rw [show outSegsCItem replace container (CItem.para p)
        = if hasTextP p.items then
            (replace container (paraText p)).flatMap
              (fun s => paraBlockSegs p (xmlEscape s))
          else p.openRaw :: (pSegsNoPh p.items ++ [p.closeRaw]) from rfl]
    rw [if_pos htext, hL, concatSegs_flatMap]
    rfl
  constructor
  · rw [h1, rewriteExpected_append, rewriteExpected_cons, hout,
      ← String.append_assoc]
  · intro hothers
    rw [outParaCount_append, inParaCount_append]
    rw [show outParaCount replace container (CItem.para p :: post)
        = (if hasTextP p.items then (replace container (paraText p)).length else 1)
            + outParaCount replace container post from rfl]
    rw [if_pos htext, hL]
    rw [show inParaCount (CItem.para p :: post) = inParaCount post + 1 from rfl]
    rw [outParaCount_eq_in replace container pre
      (fun q hq ht => hothers q (List.mem_append_left post hq) ht)]
    rw [outParaCount_eq_in replace container post
      (fun q hq ht => hothers q (List.mem_append_right pre hq) ht)]
    omega

/-- Concrete instantiation of C6: the "Hello" paragraph is duplicated by a
replacer answering two strings; the count rises from 1 to 2. -/
theorem C6_duplicate_paragraph_witness :
    (containerOk (c8Pre ++ CItem.para wPara1 :: c8Post) = true ∧
      hasTextP wPara1.items = true ∧
      (fun (_ : String) (_ : String) => ["A", "B"]) "c" (paraText wPara1)
        = ["A", "B"] ∧
      2 ≤ (["A", "B"] : List String).length) ∧
    (rewriteBytes (fun _ _ => ["A", "B"]) "c"
        (renderContainer (c8Pre ++ CItem.para wPara1 :: c8Post))
      = rewriteExpected (fun _ _ => ["A", "B"]) "c" c8Pre
          ++ concatSegs ((["A", "B"] : List String).map
              (fun s => outPara wPara1 (xmlEscape s)))
          ++ rewriteExpected (fun _ _ => ["A", "B"]) "c" c8Post
    ∧ ((∀ q, CItem.para q ∈ c8Pre ++ c8Post → hasTextP q.items = true →
          ((fun (_ : String) (_ : String) => (["A", "B"] : List String)) "c"
            (paraText q)).length = 1) →
        outParaCount (fun _ _ => ["A", "B"]) "c"
            (c8Pre ++ CItem.para wPara1 :: c8Post)
          = inParaCount (c8Pre ++ CItem.para wPara1 :: c8Post)
              + ((["A", "B"] : List String).length - 1))) :=
  ⟨⟨by decide, by decide, rfl, by decide⟩,
    C6_duplicate_paragraph (fun _ _ => ["A", "B"]) "c" c8Pre c8Post wPara1
      ["A", "B"] (by decide) (by decide) rfl (by decide)⟩

end Mydocx
